import Mathlib

/-!
Shallow embedding of the SSTable codec (`sst/sstable.go` of the tektite
repository): table build, serialize, deserialize and binary-search offset
lookup, together with proofs of the specified properties.

Byte buffers are modelled as `List Nat` (each element a byte value), Go
`uint32`/`uint64` conversions as explicit `% 2^32` / `% 2^64`, fallible
operations (Go panics such as out-of-bounds slicing) as `Option`, and the
builder's failure modes (`panic` / returned error) as `Except BuildError`.
-/

namespace SST

/-- A key/value entry as produced by the build iterator (`common.KV`). -/
structure KV where
  key : List Nat
  value : List Nat
  deriving DecidableEq, Repr

/-- The four little-endian bytes of `v` truncated to 32 bits
(`byte(v), byte(v>>8), byte(v>>16), byte(v>>24)`). -/
def u32LE (v : Nat) : List Nat :=
  [v % 256, v / 2 ^ 8 % 256, v / 2 ^ 16 % 256, v / 2 ^ 24 % 256]

/-- The eight little-endian bytes of `v` truncated to 64 bits. -/
def u64LE (v : Nat) : List Nat :=
  [v % 256, v / 2 ^ 8 % 256, v / 2 ^ 16 % 256, v / 2 ^ 24 % 256,
   v / 2 ^ 32 % 256, v / 2 ^ 40 % 256, v / 2 ^ 48 % 256, v / 2 ^ 56 % 256]

/-- Modelled from the spec: the shared little-endian integer encode helper
`encoding.AppendUint32ToBufferLE` (its source is outside the sampled files;
the spec describes 4-byte little-endian integer fields). -/
def appendUint32ToBufferLE (buff : List Nat) (v : Nat) : List Nat :=
  buff ++ u32LE v

/-- Modelled from the spec: the shared little-endian integer encode helper
`encoding.AppendUint64ToBufferLE` (8-byte little-endian field). -/
def appendUint64ToBufferLE (buff : List Nat) (v : Nat) : List Nat :=
  buff ++ u64LE v

/-- Value of a little-endian byte list (`b0 + 256*b1 + ...`). -/
def leVal : List Nat → Nat
  | [] => 0
  | b :: rest => b + 256 * leVal rest

/-- Modelled from the spec: the shared decode helper
`encoding.ReadUint32FromBufferLE`; reads 4 little-endian bytes at `offset`,
returning the value and the advanced offset, or `none` when the read would
go past the end of the buffer (a Go bounds panic). -/
def readUint32FromBufferLE (buff : List Nat) (offset : Nat) : Option (Nat × Nat) :=
  if offset + 4 ≤ buff.length then some (leVal ((buff.drop offset).take 4), offset + 4)
  else none

/-- Modelled from the spec: the shared decode helper
`encoding.ReadUint64FromBufferLE` (8 little-endian bytes at `offset`). -/
def readUint64FromBufferLE (buff : List Nat) (offset : Nat) : Option (Nat × Nat) :=
  if offset + 8 ≤ buff.length then some (leVal ((buff.drop offset).take 8), offset + 8)
  else none

/-- `bytes.Compare`: byte-lexicographic three-way comparison, a shorter
strict prefix comparing less. -/
def bytesCompare : List Nat → List Nat → Ordering
  | [], [] => .eq
  | [], _ :: _ => .lt
  | _ :: _, [] => .gt
  | a :: as, b :: bs => if a < b then .lt else if b < a then .gt else bytesCompare as bs

/-- `binary.BigEndian.Uint64` over a byte list. -/
def beUint64 (l : List Nat) : Nat :=
  l.foldl (fun acc b => acc * 256 + b) 0

/-- The version encoded in a key's trailing 8 bytes:
`math.MaxUint64 - binary.BigEndian.Uint64(key[len(key)-8:])`. -/
def entryVersion (key : List Nat) : Nat :=
  2 ^ 64 - 1 - beUint64 (key.drop (key.length - 8))

/-- `appendBytesWithLengthPrefix`: 4-byte little-endian length prefix
followed by the bytes themselves. -/
def appendBytesWithLengthPrefix (buff bs : List Nat) : List Nat :=
  appendUint32ToBufferLE buff bs.length ++ bs

/-- The `SSTable` struct: footer fields plus the owned data buffer. -/
structure SSTable where
  format : Nat
  maxKeyLength : Nat
  numEntries : Nat
  numDeletes : Nat
  indexOffset : Nat
  creationTime : Nat
  data : List Nat
  deriving DecidableEq, Repr

/-- The ways `BuildSSTable` can fail to return a table: the
"keys not in order / contains duplicates" panic, the out-of-bounds panic
when a key is shorter than 8 bytes (version-suffix slicing), and the
returned "SSTable too big" error. -/
inductive BuildError where
  | outOfOrder
  | keyTooShort
  | tableTooBig
  deriving DecidableEq, Repr

deriving instance DecidableEq for Except

/-- The builder loop's mutable state in `BuildSSTable`. -/
structure BuildState where
  buff : List Nat
  indexEntries : List (List Nat × Nat)
  maxKeyLength : Nat
  numEntries : Nat
  numDeletes : Nat
  smallestKey : List Nat
  largestKey : List Nat
  minVersion : Nat
  maxVersion : Nat
  prevKey : Option (List Nat)
  first : Bool
  deriving DecidableEq, Repr

/-- Loop body of `BuildSSTable` after the key-ordering sanity check. -/
def buildStepChecked (st : BuildState) (kv : KV) : Except BuildError BuildState :=
  let smallestKey := if st.first then kv.key else st.smallestKey
  let offset := st.buff.length % 2 ^ 32
  let maxKeyLength := if kv.key.length > st.maxKeyLength then kv.key.length else st.maxKeyLength
  let buff := appendBytesWithLengthPrefix (appendBytesWithLengthPrefix st.buff kv.key) kv.value
  let indexEntries := st.indexEntries ++ [(kv.key, offset)]
  let numEntries := st.numEntries + 1
  let numDeletes := if kv.value.length = 0 then st.numDeletes + 1 else st.numDeletes
  if kv.key.length < 8 then .error .keyTooShort
  else
    let version := entryVersion kv.key
    let maxVersion := if version > st.maxVersion then version else st.maxVersion
    let minVersion := if version < st.minVersion then version else st.minVersion
    .ok { buff := buff, indexEntries := indexEntries, maxKeyLength := maxKeyLength,
          numEntries := numEntries, numDeletes := numDeletes, smallestKey := smallestKey,
          largestKey := kv.key, minVersion := minVersion, maxVersion := maxVersion,
          prevKey := some kv.key, first := false }

/-- One iteration of the `BuildSSTable` loop: the
`bytes.Compare(prevKey, kv.Key) >= 0` sanity check, then the body. -/
def buildStep (st : BuildState) (kv : KV) : Except BuildError BuildState :=
  match st.prevKey with
  | some p =>
    if bytesCompare p kv.key = .lt then buildStepChecked st kv else .error .outOfOrder
  | none => buildStepChecked st kv

/-- The `BuildSSTable` iteration over the (finite) iterator's entries. -/
def buildLoop (st : BuildState) : List KV → Except BuildError BuildState
  | [] => .ok st
  | kv :: rest =>
    match buildStep st kv with
    | .error e => .error e
    | .ok st' => buildLoop st' rest

/-- The builder's initial state: buffer holding the format byte and four
zero placeholder bytes for the metadata-offset pointer. -/
def initState (format : Nat) : BuildState :=
  { buff := [format % 256, 0, 0, 0, 0], indexEntries := [], maxKeyLength := 0,
    numEntries := 0, numDeletes := 0, smallestKey := [], largestKey := [],
    minVersion := 2 ^ 64 - 1, maxVersion := 0, prevKey := none, first := true }

/-- Appending the index region: for each collected index entry, the key,
zero padding up to `maxKeyLength`, then the 4-byte little-endian offset. -/
def indexRegionAppend (buff : List Nat) (maxKeyLength : Nat)
    (idx : List (List Nat × Nat)) : List Nat :=
  idx.foldl
    (fun b e => appendUint32ToBufferLE (b ++ e.1 ++ List.replicate (maxKeyLength - e.1.length) 0) e.2)
    buff

/-- `BuildSSTable`.  The wall clock (`time.Now().UTC().UnixMilli()`) is an
explicit `creationTime` parameter.  Returns the table together with the
smallest key, largest key, min version and max version, or the failure. -/
def buildSSTable (format creationTime : Nat) (entries : List KV) :
    Except BuildError (SSTable × List Nat × List Nat × Nat × Nat) :=
  match buildLoop (initState format) entries with
  | .error e => .error e
  | .ok st =>
    let indexOffset := st.buff.length
    let buff := indexRegionAppend st.buff st.maxKeyLength st.indexEntries
    let metadataOffset := buff.length
    if metadataOffset > 2 ^ 32 - 1 then .error .tableTooBig
    else
      let buff := ((((buff.set 1 (metadataOffset % 256)).set 2
        (metadataOffset / 2 ^ 8 % 256)).set 3
        (metadataOffset / 2 ^ 16 % 256)).set 4
        (metadataOffset / 2 ^ 24 % 256))
      .ok ({ format := format % 256, maxKeyLength := st.maxKeyLength % 2 ^ 32,
             numEntries := st.numEntries % 2 ^ 32, numDeletes := st.numDeletes % 2 ^ 32,
             indexOffset := indexOffset % 2 ^ 32, creationTime := creationTime % 2 ^ 64,
             data := buff },
            st.smallestKey, st.largestKey, st.minVersion, st.maxVersion)

/-- `Serialize`: the data buffer followed by the 24-byte footer
`maxKeyLength | numEntries | numDeletes | indexOffset | creationTime`. -/
def serialize (s : SSTable) : List Nat :=
  appendUint64ToBufferLE
    (appendUint32ToBufferLE
      (appendUint32ToBufferLE
        (appendUint32ToBufferLE
          (appendUint32ToBufferLE s.data s.maxKeyLength) s.numEntries) s.numDeletes)
      s.indexOffset) s.creationTime

/-- `Deserialize`: reads the format byte at `startOffset`, the 4-byte
metadata-offset pointer, jumps to that (absolute) offset, reads the five
footer fields, and takes `buff[:len(buff)-24]` as the data buffer.
`none` models the Go bounds-check panics on malformed input. -/
def deserialize (buff : List Nat) (startOffset : Nat) : Option (SSTable × Nat) :=
  match buff.get? startOffset with
  | none => none
  | some format =>
    match readUint32FromBufferLE buff (startOffset + 1) with
    | none => none
    | some (metadataOffset, _) =>
      match readUint32FromBufferLE buff metadataOffset with
      | none => none
      | some (maxKeyLength, offset1) =>
        match readUint32FromBufferLE buff offset1 with
        | none => none
        | some (numEntries, offset2) =>
          match readUint32FromBufferLE buff offset2 with
          | none => none
          | some (numDeletes, offset3) =>
            match readUint32FromBufferLE buff offset3 with
            | none => none
            | some (indexOffset, offset4) =>
              match readUint64FromBufferLE buff offset4 with
              | none => none
              | some (creationTime, offset5) =>
                if 24 ≤ buff.length then
                  some ({ format := format, maxKeyLength := maxKeyLength,
                          numEntries := numEntries, numDeletes := numDeletes,
                          indexOffset := indexOffset, creationTime := creationTime,
                          data := buff.take (buff.length - 24) }, offset5)
                else none

/-- `DeleteRatio`, with the `float64` quotient abstracted to the exact
rational `numDeletes / numEntries`. -/
def deleteRatio (s : SSTable) : ℚ :=
  (s.numDeletes : ℚ) / (s.numEntries : ℚ)

/-- `SizeBytes`. -/
def sizeBytes (s : SSTable) : Nat := s.data.length + 24

/-- Go slice expression `data[a:b]` with `Int` bounds: `none` (panic)
unless `0 ≤ a ≤ b ≤ len`. -/
def sstSlice (data : List Nat) (a b : Int) : Option (List Nat) :=
  if 0 ≤ a ∧ a ≤ b ∧ b ≤ (data.length : Int) then
    some ((data.drop a.toNat).take (b - a).toNat)
  else none

/-- `ReadUint32FromBufferLE` as used from `findOffset`, where the offset is
an `int` expression. -/
def readUint32At (data : List Nat) (off : Int) : Option Nat :=
  if 0 ≤ off ∧ off + 4 ≤ (data.length : Int) then
    some (leVal ((data.drop off.toNat).take 4))
  else none

/-- The `for low < high` binary-search loop of `findOffset`, returning the
final value of `high` (or `none` on an out-of-bounds index read). -/
def findLoop (data key : List Nat) (indexRecordLen indexOffset maxKeyLength : Int)
    (low high : Int) : Option Int :=
  if h : low < high then
    let middle := low + (high - low) / 2
    let recordStart := middle * indexRecordLen + indexOffset
    match sstSlice data recordStart (recordStart + maxKeyLength) with
    | none => none
    | some midKey =>
      if bytesCompare midKey key = .lt then
        findLoop data key indexRecordLen indexOffset maxKeyLength (middle + 1) high
      else
        findLoop data key indexRecordLen indexOffset maxKeyLength low middle
  else some high
termination_by (high - low).toNat
decreasing_by
  all_goals
    simp only [Int.lt_iff_add_one_le] at h
    omega

/-- `findOffset`: binary search over the fixed-stride index records;
`some (-1)` is the not-found sentinel, `none` a bounds panic. -/
def findOffset (s : SSTable) (key : List Nat) : Option Int :=
  let indexRecordLen : Int := (s.maxKeyLength : Int) + 4
  let numEntries : Int := (s.numEntries : Int)
  let indexOffset : Int := (s.indexOffset : Int)
  let maxKeyLength : Int := (s.maxKeyLength : Int)
  let outerHighBound : Int := numEntries - 1
  match findLoop s.data key indexRecordLen indexOffset maxKeyLength 0 outerHighBound with
  | none => none
  | some high =>
    let checked : Option Bool :=
      if high = outerHighBound then
        let recordStart := high * indexRecordLen + indexOffset
        match sstSlice s.data recordStart (recordStart + maxKeyLength) with
        | none => none
        | some highKey => some (decide (bytesCompare highKey key = .lt))
      else some false
    match checked with
    | none => none
    | some true => some (-1)
    | some false =>
      let recordStart := high * indexRecordLen + indexOffset
      let valueStart := recordStart + maxKeyLength
      match readUint32At s.data valueStart with
      | none => none
      | some off => some (off : Int)

/-- The read a `findOffset` caller performs at the returned offset: the
4-byte little-endian key length followed by that many key bytes. -/
def readLengthPrefixed (data : List Nat) (off : Nat) : Option (List Nat) :=
  match readUint32FromBufferLE data off with
  | none => none
  | some (len, off2) =>
    if off2 + len ≤ data.length then some ((data.drop off2).take len) else none

/-! ### Functional description of the build pass -/
/-- The bytes one entry contributes to the entries region: length-prefixed
key followed by length-prefixed value. -/
def entryBytes (kv : KV) : List Nat :=
  u32LE kv.key.length ++ kv.key ++ u32LE kv.value.length ++ kv.value

/-- The entries region: each entry's bytes in input order. -/
def entriesRegion : List KV → List Nat
  | [] => []
  | kv :: rest => entryBytes kv ++ entriesRegion rest

/-- The collected index entries: each key with the (32-bit truncated)
buffer offset its record was written at, starting from offset `base`. -/
def idxSpec (base : Nat) : List KV → List (List Nat × Nat)
  | [] => []
  | kv :: rest => (kv.key, base % 2 ^ 32) :: idxSpec (base + (entryBytes kv).length) rest

/-- Running maximum of key lengths (the builder's `maxKeyLength` update). -/
def maxKLfold (m : Nat) (es : List KV) : Nat :=
  es.foldl (fun a kv => if kv.key.length > a then kv.key.length else a) m

/-- Running tombstone count (the builder's `numDeletes` update). -/
def numDelFold (d : Nat) (es : List KV) : Nat :=
  es.foldl (fun a kv => if kv.value.length = 0 then a + 1 else a) d

/-- Running minimum version (the builder's `minVersion` update). -/
def minVFold (m : Nat) (es : List KV) : Nat :=
  es.foldl (fun a kv => if entryVersion kv.key < a then entryVersion kv.key else a) m

/-- Running maximum version (the builder's `maxVersion` update). -/
def maxVFold (m : Nat) (es : List KV) : Nat :=
  es.foldl (fun a kv => if entryVersion kv.key > a then entryVersion kv.key else a) m

/-- First key of the sequence, or a default. -/
def headKeyD (d : List Nat) : List KV → List Nat
  | [] => d
  | kv :: _ => kv.key

/-- Last key of the sequence, or a default. -/
def lastKeyOr (d : List Nat) : List KV → List Nat
  | [] => d
  | kv :: rest => lastKeyOr kv.key rest

/-- Last key of the sequence as the loop's running `prevKey`. -/
def lastKeyD (d : Option (List Nat)) : List KV → Option (List Nat)
  | [] => d
  | kv :: rest => lastKeyD (some kv.key) rest

/-- The builder's ordering sanity check holds along the whole sequence,
starting from previous key `p`. -/
def keysOrdered (p : Option (List Nat)) : List KV → Prop
  | [] => True
  | kv :: rest =>
    (match p with
     | some q => bytesCompare q kv.key = Ordering.lt
     | none => True) ∧ keysOrdered (some kv.key) rest

instance keysOrderedDecidable (p : Option (List Nat)) (es : List KV) :
    Decidable (keysOrdered p es) :=
  match es with
  | [] => isTrue trivial
  | kv :: rest =>
    have hrest : Decidable (keysOrdered (some kv.key) rest) := keysOrderedDecidable _ _
    match p with
    | some _ => instDecidableAnd
    | none => instDecidableAnd

/-- A stored key zero-padded on the right to the table's `maxKeyLength`:
the shape of an index record's key field. -/
def padKey (mkl : Nat) (k : List Nat) : List Nat :=
  k ++ List.replicate (mkl - k.length) 0

/-- One fixed-stride index record. -/
def indexBlock (mkl : Nat) (e : List Nat × Nat) : List Nat :=
  padKey mkl e.1 ++ u32LE e.2

/-- The index region: all index records back to back. -/
def indexRegion (mkl : Nat) : List (List Nat × Nat) → List Nat
  | [] => []
  | e :: rest => indexBlock mkl e ++ indexRegion mkl rest

/-- Length of the entries region. -/
def entriesLen (es : List KV) : Nat := (entriesRegion es).length

/-- Overall maximum key length of the input. -/
def mklOf (es : List KV) : Nat := maxKLfold 0 es

/-- Total size of header + entries region + index region: the
`metadataOffset` the builder checks against the 32-bit bound. -/
def encodedSize (es : List KV) : Nat :=
  5 + entriesLen es + es.length * (mklOf es + 4)

/-- The data buffer of a successfully built table: format byte, 4-byte
little-endian pointer to the metadata (footer) position, entries region,
index region. -/
def tableData (f : Nat) (es : List KV) : List Nat :=
  f % 256 :: (u32LE (encodedSize es) ++ (entriesRegion es ++ indexRegion (mklOf es) (idxSpec 5 es)))

/-- The table a successful build returns. -/
def tableSpec (f now : Nat) (es : List KV) : SSTable :=
  { format := f % 256, maxKeyLength := mklOf es, numEntries := es.length,
    numDeletes := numDelFold 0 es, indexOffset := 5 + entriesLen es,
    creationTime := now % 2 ^ 64, data := tableData f es }

/-- State after a successful run of the build loop over `es` from `st`. -/
def loopOut (st : BuildState) (es : List KV) : BuildState :=
  { buff := st.buff ++ entriesRegion es,
    indexEntries := st.indexEntries ++ idxSpec st.buff.length es,
    maxKeyLength := maxKLfold st.maxKeyLength es,
    numEntries := st.numEntries + es.length,
    numDeletes := numDelFold st.numDeletes es,
    smallestKey := if st.first then headKeyD st.smallestKey es else st.smallestKey,
    largestKey := lastKeyOr st.largestKey es,
    minVersion := minVFold st.minVersion es,
    maxVersion := maxVFold st.maxVersion es,
    prevKey := lastKeyD st.prevKey es,
    first := st.first && es.isEmpty }

/-- The state after one successful loop iteration. -/
def stepState (st : BuildState) (kv : KV) : BuildState :=
  { buff := st.buff ++ entryBytes kv,
    indexEntries := st.indexEntries ++ [(kv.key, st.buff.length % 2 ^ 32)],
    maxKeyLength := if kv.key.length > st.maxKeyLength then kv.key.length else st.maxKeyLength,
    numEntries := st.numEntries + 1,
    numDeletes := if kv.value.length = 0 then st.numDeletes + 1 else st.numDeletes,
    smallestKey := if st.first then kv.key else st.smallestKey,
    largestKey := kv.key,
    minVersion := if entryVersion kv.key < st.minVersion then entryVersion kv.key else st.minVersion,
    maxVersion := if entryVersion kv.key > st.maxVersion then entryVersion kv.key else st.maxVersion,
    prevKey := some kv.key, first := false }

/-! ### Layout of the entries and index regions -/
/-- Byte offset of entry `j` within the entries region. -/
def offsetOf (es : List KV) (j : Nat) : Nat :=
  ((es.take j).map (fun kv => (entryBytes kv).length)).sum

/-! ### Padded-key ordering -/
/-- Key of the entry at position `i` (empty past the end). -/
def keyAt (es : List KV) (i : Nat) : List Nat :=
  match es.get? i with
  | some kv => kv.key
  | none => []

/-- Unambiguous padding: every entry's key, zero-padded to the table's
maximum key length, still compares strictly below the next entry's key.
This is the condition under which the index's padded-key comparisons agree
with comparisons on the true keys. -/
def paddedOrdered (es : List KV) : Prop :=
  ∀ (i : Nat) (a b : KV), es.get? i = some a → es.get? (i + 1) = some b →
    bytesCompare (padKey (mklOf es) a.key) b.key = .lt

/-! ### Concrete example tables -/
/-- A small two-entry input: 8-byte keys, second value a tombstone. -/
def exSmall : List KV := [⟨List.replicate 8 97, [1]⟩, ⟨List.replicate 8 98, []⟩]

/-- A one-entry input. -/
def c4ex : List KV := [⟨List.replicate 8 97, [118]⟩]

/-- Entries whose second key equals the zero-padding of the first key. -/
def c1bad1 : List KV := [⟨List.replicate 8 97, [1]⟩, ⟨List.replicate 8 97 ++ [0, 0], [2]⟩]

/-- Entries where a lookup key above both true keys stays below the padded
form of the last stored key. -/
def c1bad2 : List KV := [⟨List.replicate 7 97 ++ [96, 0, 0], [5]⟩, ⟨List.replicate 8 97, [6]⟩]

/-- A buffer with three garbage bytes before a serialized table. -/
def c5buff : List Nat := [9, 9, 9] ++ serialize (tableSpec 3 42 c4ex)

/-- Input with the second key equal to the first (a duplicate). -/
def c6ex : List KV := [⟨List.replicate 8 98, [1]⟩, ⟨List.replicate 8 98, [2]⟩]

/-- A single entry whose value alone spans the full 32-bit offset range. -/
def c7ex : List KV := [⟨List.replicate 8 97, List.replicate (2 ^ 32) 0⟩]

/-! ### Byte-lexicographic comparison toolkit -/
theorem bytesCompare_self (a : List Nat) : bytesCompare a a = .eq := by
  induction a with
  | nil => rfl
  | cons x xs ih => simp [bytesCompare, ih]

theorem bytesCompare_eq_iff {a b : List Nat} : bytesCompare a b = .eq ↔ a = b := by
  induction a generalizing b with
  | nil => cases b <;> simp [bytesCompare]
  | cons x xs ih =>
    cases b with
    | nil => simp [bytesCompare]
    | cons y ys =>
      by_cases hxy : x < y
      · simp [bytesCompare, hxy]
        omega
      · by_cases hyx : y < x
        · simp [bytesCompare, hxy, hyx]
          omega
        · have hx : x = y := by omega
          subst hx
          simp [bytesCompare, ih]

theorem bytesCompare_gt_iff {a b : List Nat} :
    bytesCompare a b = .gt ↔ bytesCompare b a = .lt := by
  induction a generalizing b with
  | nil => cases b <;> simp [bytesCompare]
  | cons x xs ih =>
    cases b with
    | nil => simp [bytesCompare]
    | cons y ys =>
      by_cases hxy : x < y
      · simp [bytesCompare, hxy, Nat.lt_asymm hxy]
      · by_cases hyx : y < x
        · simp [bytesCompare, hxy, hyx]
        · have hx : x = y := by omega
          subst hx
          simp [bytesCompare, ih]

theorem bytesCompare_lt_trans {a b c : List Nat}
    (hab : bytesCompare a b = .lt) (hbc : bytesCompare b c = .lt) :
    bytesCompare a c = .lt := by
  induction a generalizing b c with
  | nil =>
    cases b with
    | nil => simp [bytesCompare] at hab
    | cons y ys => cases c <;> simp_all [bytesCompare]
  | cons x xs ih =>
    cases b with
    | nil => simp [bytesCompare] at hab
    | cons y ys =>
      cases c with
      | nil => simp [bytesCompare] at hbc
      | cons z zs =>
        simp only [bytesCompare] at hab hbc ⊢
        by_cases hxy : x < y
        · by_cases hyz : y < z
          · simp [show x < z by omega]
          · by_cases hzy : z < y
            · simp [hyz, hzy] at hbc
            · have : y = z := by omega
              subst this
              simp [hxy]
        · by_cases hyx : y < x
          · simp [hxy, hyx] at hab
          · have : x = y := by omega
            subst this
            simp only [hxy, if_false, lt_irrefl, if_neg (lt_irrefl x)] at hab ⊢
            by_cases hyz : x < z
            · simp [hyz]
            · by_cases hzy : z < x
              · simp [hyz, hzy] at hbc
              · have : x = z := by omega
                subst this
                simp only [lt_irrefl, if_false, if_neg (lt_irrefl x)] at hbc ⊢
                exact ih hab hbc

theorem bytesCompare_le_lt_trans {a b c : List Nat}
    (hab : bytesCompare a b ≠ .gt) (hbc : bytesCompare b c = .lt) :
    bytesCompare a c = .lt := by
  rcases h : bytesCompare a b with heq | heq | heq
  · exact bytesCompare_lt_trans h hbc
  · exact (bytesCompare_eq_iff.mp h) ▸ hbc
  · exact absurd h hab

theorem bytesCompare_lt_le_trans {a b c : List Nat}
    (hab : bytesCompare a b = .lt) (hbc : bytesCompare b c ≠ .gt) :
    bytesCompare a c = .lt := by
  rcases h : bytesCompare b c with heq | heq | heq
  · exact bytesCompare_lt_trans hab h
  · exact (bytesCompare_eq_iff.mp h) ▸ hab
  · exact absurd h hbc

theorem bytesCompare_le_trans {a b c : List Nat}
    (hab : bytesCompare a b ≠ .gt) (hbc : bytesCompare b c ≠ .gt) :
    bytesCompare a c ≠ .gt := by
  intro hac
  have hca : bytesCompare c a = .lt := bytesCompare_gt_iff.mp hac
  rcases h1 : bytesCompare a b with h | h | h
  · exact hbc (bytesCompare_gt_iff.mpr (bytesCompare_lt_trans hca h1))
  · rw [bytesCompare_eq_iff.mp h1] at hca
    exact hbc (bytesCompare_gt_iff.mpr hca)
  · exact hab h1

/-- A list compares `≤` against itself extended by any suffix. -/
theorem bytesCompare_prefix_le (a z : List Nat) : bytesCompare a (a ++ z) ≠ .gt := by
  induction a with
  | nil => cases z <;> simp [bytesCompare]
  | cons x xs ih => simpa [bytesCompare] using ih

/-- A list extended by any suffix never compares `<` against the list itself. -/
theorem bytesCompare_append_not_lt (a z : List Nat) : bytesCompare (a ++ z) a ≠ .lt := by
  intro h
  exact bytesCompare_prefix_le a z (bytesCompare_gt_iff.mpr h)

theorem bytesCompare_asymm {a b : List Nat}
    (h : bytesCompare a b = .lt) : bytesCompare b a ≠ .lt := by
  intro h'
  have := bytesCompare_lt_trans h h'
  rw [bytesCompare_self] at this
  cases this

theorem appendBytes_pair (buff : List Nat) (kv : KV) :
    appendBytesWithLengthPrefix (appendBytesWithLengthPrefix buff kv.key) kv.value
      = buff ++ entryBytes kv := by
  simp [appendBytesWithLengthPrefix, appendUint32ToBufferLE, entryBytes, List.append_assoc]

theorem buildLoop_ok (es : List KV) : ∀ st : BuildState,
    keysOrdered st.prevKey es → (∀ kv ∈ es, 8 ≤ kv.key.length) →
    buildLoop st es = .ok (loopOut st es) := by
  induction es with
  | nil =>
    intro st _ _
    cases st
    simp [buildLoop, loopOut, maxKLfold, numDelFold, minVFold, maxVFold,
      entriesRegion, idxSpec, headKeyD, lastKeyOr, lastKeyD, ite_self]
  | cons kv rest ih =>
    intro st hord hlen
    have hk8 : 8 ≤ kv.key.length := hlen kv (by simp)
    have hchk : buildStepChecked st kv = .ok (stepState st kv) := by
      unfold buildStepChecked stepState
      rw [if_neg (by omega), appendBytes_pair]
    have hstep : buildStep st kv = .ok (stepState st kv) := by
      rcases hp : st.prevKey with _ | p
      · simp only [buildStep, hp]
        exact hchk
      · have hcmp : bytesCompare p kv.key = .lt := by
          rw [hp] at hord
          exact hord.1
        simp only [buildStep, hp]
        rw [if_pos hcmp]
        exact hchk
    have hord2 : keysOrdered (stepState st kv).prevKey rest := hord.2
    have hlen2 : ∀ kv' ∈ rest, 8 ≤ kv'.key.length := fun kv' h => hlen kv' (by simp [h])
    have hrec := ih (stepState st kv) hord2 hlen2
    simp only [buildLoop, hstep]
    rw [hrec]
    congr 1
    simp only [loopOut, stepState, BuildState.mk.injEq, entriesRegion, idxSpec, maxKLfold,
      numDelFold, minVFold, maxVFold, headKeyD, lastKeyOr, lastKeyD, List.foldl_cons,
      List.isEmpty_cons, Bool.and_false, Bool.false_and, List.length_cons, List.length_append,
      List.append_assoc, List.cons_append, List.nil_append, List.singleton_append,
      Bool.false_eq_true, if_false]
    and_intros <;>
      first
        | trivial
        | omega

theorem maxKLfold_le_init (es : List KV) : ∀ m, m ≤ maxKLfold m es := by
  induction es with
  | nil => intro m; exact le_refl m
  | cons kv rest ih =>
    intro m
    have h1 : m ≤ if kv.key.length > m then kv.key.length else m := by split <;> omega
    exact le_trans h1 (ih _)

theorem maxKLfold_key_le {es : List KV} {kv : KV} (h : kv ∈ es) :
    ∀ m, kv.key.length ≤ maxKLfold m es := by
  induction es with
  | nil => cases h
  | cons kv0 rest ih =>
    intro m
    rcases List.mem_cons.mp h with he | he
    · subst he
      refine le_trans ?_ (maxKLfold_le_init rest _)
      show kv.key.length ≤ if kv.key.length > m then kv.key.length else m
      split <;> omega
    · exact ih he _

theorem numDelFold_le (es : List KV) : ∀ d, numDelFold d es ≤ d + es.length := by
  induction es with
  | nil => intro d; simp [numDelFold]
  | cons kv rest ih =>
    intro d
    have h1 := ih (if kv.value.length = 0 then d + 1 else d)
    have h2 : numDelFold d (kv :: rest)
        = numDelFold (if kv.value.length = 0 then d + 1 else d) rest := rfl
    rw [h2]
    refine le_trans h1 ?_
    split <;> simp <;> omega

theorem padKey_length {mkl : Nat} {k : List Nat} (h : k.length ≤ mkl) :
    (padKey mkl k).length = mkl := by
  simp [padKey]
  omega

theorem indexRegion_idxSpec_length (mkl : Nat) (es : List KV)
    (hk : ∀ kv ∈ es, kv.key.length ≤ mkl) :
    ∀ base, (indexRegion mkl (idxSpec base es)).length = es.length * (mkl + 4) := by
  induction es with
  | nil => intro base; simp [idxSpec, indexRegion]
  | cons kv rest ih =>
    intro base
    have hkv : kv.key.length ≤ mkl := hk kv (by simp)
    have hrest : ∀ kv' ∈ rest, kv'.key.length ≤ mkl := fun kv' h => hk kv' (by simp [h])
    simp only [idxSpec, indexRegion, indexBlock, List.length_append, List.length_cons,
      ih hrest, padKey_length hkv, u32LE, List.length_cons, List.length_nil]
    ring

theorem indexRegionAppend_eq (mkl : Nat) (idx : List (List Nat × Nat)) :
    ∀ (buff : List Nat),
    indexRegionAppend buff mkl idx = buff ++ indexRegion mkl idx := by
  induction idx with
  | nil => intro buff; simp [indexRegionAppend, indexRegion]
  | cons e rest ih =>
    intro buff
    have h1 : indexRegionAppend buff mkl (e :: rest)
        = indexRegionAppend
            (appendUint32ToBufferLE (buff ++ e.1 ++ List.replicate (mkl - e.1.length) 0) e.2)
            mkl rest := rfl
    rw [h1, ih]
    simp [indexRegion, indexBlock, padKey, appendUint32ToBufferLE, List.append_assoc]

theorem entriesLen_le_encodedSize (es : List KV) : 5 + entriesLen es ≤ encodedSize es := by
  unfold encodedSize
  omega

theorem mklOf_bound {es : List KV} (hsize : encodedSize es ≤ 2 ^ 32 - 1) :
    mklOf es < 2 ^ 32 := by
  cases es with
  | nil =>
    show maxKLfold 0 [] < 2 ^ 32
    norm_num [maxKLfold]
  | cons kv rest =>
    have h1 : mklOf (kv :: rest) + 4 ≤ (kv :: rest).length * (mklOf (kv :: rest) + 4) :=
      Nat.le_mul_of_pos_left _ (by simp)
    unfold encodedSize at hsize
    omega

theorem numEntries_bound {es : List KV} (hsize : encodedSize es ≤ 2 ^ 32 - 1) :
    es.length < 2 ^ 32 := by
  have h1 : es.length * 4 ≤ es.length * (mklOf es + 4) :=
    Nat.mul_le_mul_left _ (by omega)
  unfold encodedSize at hsize
  omega

/-- Successful build: the returned table and summary values, explicitly. -/
theorem buildSSTable_ok (f now : Nat) (es : List KV)
    (hord : keysOrdered none es) (hlen : ∀ kv ∈ es, 8 ≤ kv.key.length)
    (hsize : encodedSize es ≤ 2 ^ 32 - 1) :
    buildSSTable f now es =
      .ok (tableSpec f now es, headKeyD [] es, lastKeyOr [] es,
           minVFold (2 ^ 64 - 1) es, maxVFold 0 es) := by
  have hloop := buildLoop_ok es (initState f) hord hlen
  have hfields : (loopOut (initState f) es).buff = [f % 256, 0, 0, 0, 0] ++ entriesRegion es
      ∧ (loopOut (initState f) es).indexEntries = idxSpec 5 es
      ∧ (loopOut (initState f) es).maxKeyLength = mklOf es
      ∧ (loopOut (initState f) es).numEntries = es.length
      ∧ (loopOut (initState f) es).numDeletes = numDelFold 0 es
      ∧ (loopOut (initState f) es).smallestKey = headKeyD [] es
      ∧ (loopOut (initState f) es).largestKey = lastKeyOr [] es
      ∧ (loopOut (initState f) es).minVersion = minVFold (2 ^ 64 - 1) es
      ∧ (loopOut (initState f) es).maxVersion = maxVFold 0 es := by
    simp [loopOut, initState, mklOf]
  obtain ⟨hb, hie, hmk, hne, hnd, hsm, hlg, hmn, hmx⟩ := hfields
  have hklemkl : ∀ kv ∈ es, kv.key.length ≤ mklOf es := fun kv h => maxKLfold_key_le h 0
  have hreglen : (indexRegion (mklOf es) (idxSpec 5 es)).length = es.length * (mklOf es + 4) :=
    indexRegion_idxSpec_length _ _ hklemkl 5
  have htotal :
      (indexRegionAppend (loopOut (initState f) es).buff (loopOut (initState f) es).maxKeyLength
        (loopOut (initState f) es).indexEntries).length = encodedSize es := by
    rw [indexRegionAppend_eq, hb, hie, hmk]
    simp only [encodedSize, entriesLen, List.length_append, hreglen, List.length_cons,
      List.length_nil]
  have hdata :
      indexRegionAppend (loopOut (initState f) es).buff (loopOut (initState f) es).maxKeyLength
        (loopOut (initState f) es).indexEntries
      = [f % 256, 0, 0, 0, 0] ++ (entriesRegion es ++ indexRegion (mklOf es) (idxSpec 5 es)) := by
    rw [indexRegionAppend_eq, hb, hie, hmk, List.append_assoc]
  simp only [buildSSTable, hloop]
  rw [htotal, if_neg (by omega)]
  rw [hdata, hb, hmk, hne, hnd, hsm, hlg, hmn, hmx]
  have hmkl_lt := mklOf_bound hsize
  have hn_lt := numEntries_bound hsize
  have hnd_lt : numDelFold 0 es < 2 ^ 32 := lt_of_le_of_lt (by simpa using numDelFold_le es 0) hn_lt
  have hio_lt : 5 + (entriesRegion es).length < 2 ^ 32 := by
    have := entriesLen_le_encodedSize es
    unfold entriesLen at this
    omega
  simp only [tableSpec, tableData, entriesLen, u32LE, Nat.mod_eq_of_lt hmkl_lt,
    Nat.mod_eq_of_lt hn_lt, Nat.mod_eq_of_lt hnd_lt, List.cons_append, List.nil_append,
    List.length_append, List.length_cons, List.length_nil, List.set_cons_succ,
    List.set_cons_zero]
  rw [show ((entriesRegion es).length + 1 + 1 + 1 + 1 + 1) % 2 ^ 32
      = 5 + (entriesRegion es).length from by omega]

/-! ### Builder failure paths -/
theorem buildStepChecked_short {st : BuildState} {kv : KV} (h8 : kv.key.length < 8) :
    buildStepChecked st kv = .error .keyTooShort := by
  unfold buildStepChecked
  rw [if_pos h8]

theorem buildStepChecked_ok {st : BuildState} {kv : KV} (h8 : ¬ kv.key.length < 8) :
    buildStepChecked st kv = .ok (stepState st kv) := by
  unfold buildStepChecked stepState
  rw [if_neg h8, appendBytes_pair]

theorem buildStep_none {st : BuildState} {kv : KV} (hp : st.prevKey = none) :
    buildStep st kv = buildStepChecked st kv := by
  simp only [buildStep, hp]

theorem buildStep_some_lt {st : BuildState} {kv : KV} {p : List Nat}
    (hp : st.prevKey = some p) (hc : bytesCompare p kv.key = .lt) :
    buildStep st kv = buildStepChecked st kv := by
  simp only [buildStep, hp]
  rw [if_pos hc]

theorem buildStep_some_ge {st : BuildState} {kv : KV} {p : List Nat}
    (hp : st.prevKey = some p) (hc : bytesCompare p kv.key ≠ .lt) :
    buildStep st kv = .error .outOfOrder := by
  simp only [buildStep, hp]
  rw [if_neg hc]

theorem buildLoop_not_ok (es : List KV) : ∀ st : BuildState,
    ¬ keysOrdered st.prevKey es → ∀ st', buildLoop st es ≠ .ok st' := by
  induction es with
  | nil => intro st hno st' _; exact hno trivial
  | cons kv rest ih =>
    intro st hno st' h
    rcases hp : st.prevKey with _ | p
    · have hno' : ¬ keysOrdered (some kv.key) rest := by
        rw [hp] at hno
        intro hk
        exact hno ⟨trivial, hk⟩
      by_cases h8 : kv.key.length < 8
      · simp only [buildLoop, buildStep_none hp, buildStepChecked_short h8] at h
        exact Except.noConfusion h
      · simp only [buildLoop, buildStep_none hp, buildStepChecked_ok h8] at h
        exact ih (stepState st kv) hno' st' h
    · by_cases hcmp : bytesCompare p kv.key = .lt
      · have hno' : ¬ keysOrdered (some kv.key) rest := by
          rw [hp] at hno
          intro hk
          exact hno ⟨hcmp, hk⟩
        by_cases h8 : kv.key.length < 8
        · simp only [buildLoop, buildStep_some_lt hp hcmp, buildStepChecked_short h8] at h
          exact Except.noConfusion h
        · simp only [buildLoop, buildStep_some_lt hp hcmp, buildStepChecked_ok h8] at h
          exact ih (stepState st kv) hno' st' h
      · simp only [buildLoop, buildStep_some_ge hp hcmp] at h
        exact Except.noConfusion h

theorem buildLoop_outOfOrder (es : List KV) : ∀ st : BuildState,
    (∀ kv ∈ es, 8 ≤ kv.key.length) → ¬ keysOrdered st.prevKey es →
    buildLoop st es = .error .outOfOrder := by
  induction es with
  | nil => intro st _ hno; exact absurd trivial hno
  | cons kv rest ih =>
    intro st hlen hno
    have h8 : ¬ kv.key.length < 8 := by
      have := hlen kv (by simp)
      omega
    have hlen' : ∀ kv' ∈ rest, 8 ≤ kv'.key.length := fun kv' h => hlen kv' (by simp [h])
    rcases hp : st.prevKey with _ | p
    · have hno' : ¬ keysOrdered (some kv.key) rest := by
        rw [hp] at hno
        intro hk
        exact hno ⟨trivial, hk⟩
      simp only [buildLoop, buildStep_none hp, buildStepChecked_ok h8]
      exact ih (stepState st kv) hlen' hno'
    · by_cases hcmp : bytesCompare p kv.key = .lt
      · have hno' : ¬ keysOrdered (some kv.key) rest := by
          rw [hp] at hno
          intro hk
          exact hno ⟨hcmp, hk⟩
        simp only [buildLoop, buildStep_some_lt hp hcmp, buildStepChecked_ok h8]
        exact ih (stepState st kv) hlen' hno'
      · simp only [buildLoop, buildStep_some_ge hp hcmp]

theorem buildLoop_ne_keyTooShort (es : List KV) : ∀ st : BuildState,
    (∀ kv ∈ es, 8 ≤ kv.key.length) → buildLoop st es ≠ .error .keyTooShort := by
  induction es with
  | nil => intro st _ h; exact Except.noConfusion h
  | cons kv rest ih =>
    intro st hlen h
    have h8 : ¬ kv.key.length < 8 := by
      have := hlen kv (by simp)
      omega
    have hlen' : ∀ kv' ∈ rest, 8 ≤ kv'.key.length := fun kv' hm => hlen kv' (by simp [hm])
    rcases hp : st.prevKey with _ | p
    · simp only [buildLoop, buildStep_none hp, buildStepChecked_ok h8] at h
      exact ih (stepState st kv) hlen' h
    · by_cases hcmp : bytesCompare p kv.key = .lt
      · simp only [buildLoop, buildStep_some_lt hp hcmp, buildStepChecked_ok h8] at h
        exact ih (stepState st kv) hlen' h
      · simp only [buildLoop, buildStep_some_ge hp hcmp] at h
        exact BuildError.noConfusion (Except.error.inj h)

theorem buildSSTable_loop_error {f now : Nat} {es : List KV} {e : BuildError}
    (h : buildLoop (initState f) es = .error e) :
    buildSSTable f now es = .error e := by
  simp only [buildSSTable, h]

/-- A consecutive out-of-order (or duplicate) pair refutes the ordering
invariant from any starting previous key. -/
theorem not_keysOrdered_of_violation :
    ∀ (es : List KV) (i : Nat) (a b : KV), es.get? i = some a → es.get? (i + 1) = some b →
    bytesCompare a.key b.key ≠ .lt → ∀ p, ¬ keysOrdered p es := by
  intro es
  induction es with
  | nil => intro i a b ha _ _ _; simp at ha
  | cons kv rest ih =>
    intro i a b ha hb hv p hk
    cases i with
    | zero =>
      simp only [List.get?_cons_zero] at ha
      cases ha
      rcases rest with _ | ⟨b0, rest'⟩
      · simp at hb
      · simp only [List.get?_cons_succ, List.get?_cons_zero] at hb
        cases hb
        exact hv hk.2.1
    | succ j =>
      simp only [List.get?_cons_succ] at ha hb
      exact ih j a b ha hb hv (some kv.key) hk.2

/-- The "SSTable too big" check fires whenever the encoded size exceeds the
32-bit range and the loop itself succeeds. -/
theorem buildSSTable_tooBig (f now : Nat) (es : List KV)
    (hord : keysOrdered none es) (hlen : ∀ kv ∈ es, 8 ≤ kv.key.length)
    (hsize : 2 ^ 32 - 1 < encodedSize es) :
    buildSSTable f now es = .error .tableTooBig := by
  have hloop := buildLoop_ok es (initState f) hord hlen
  have hb : (loopOut (initState f) es).buff = [f % 256, 0, 0, 0, 0] ++ entriesRegion es := by
    simp [loopOut, initState]
  have hie : (loopOut (initState f) es).indexEntries = idxSpec 5 es := by
    simp [loopOut, initState]
  have hmk : (loopOut (initState f) es).maxKeyLength = mklOf es := by
    simp [loopOut, initState, mklOf]
  have hklemkl : ∀ kv ∈ es, kv.key.length ≤ mklOf es := fun kv h => maxKLfold_key_le h 0
  have hreglen : (indexRegion (mklOf es) (idxSpec 5 es)).length = es.length * (mklOf es + 4) :=
    indexRegion_idxSpec_length _ _ hklemkl 5
  have htotal :
      (indexRegionAppend (loopOut (initState f) es).buff (loopOut (initState f) es).maxKeyLength
        (loopOut (initState f) es).indexEntries).length = encodedSize es := by
    rw [indexRegionAppend_eq, hb, hie, hmk]
    simp only [encodedSize, entriesLen, List.length_append, hreglen, List.length_cons,
      List.length_nil]
  simp only [buildSSTable, hloop]
  rw [htotal, if_pos (by omega)]

/-! ### Little-endian decode lemmas and the codec round trip -/
theorem leVal_u32LE (v : Nat) : leVal (u32LE v) = v % 2 ^ 32 := by
  simp only [u32LE, leVal]
  omega

theorem leVal_u64LE (v : Nat) : leVal (u64LE v) = v % 2 ^ 64 := by
  simp only [u64LE, leVal]
  omega

theorem u32LE_length (v : Nat) : (u32LE v).length = 4 := by
  simp [u32LE]

theorem u64LE_length (v : Nat) : (u64LE v).length = 8 := by
  simp [u64LE]

theorem readUint32_of_drop {buff : List Nat} {off v : Nat} {rest : List Nat}
    (h : buff.drop off = u32LE v ++ rest) :
    readUint32FromBufferLE buff off = some (v % 2 ^ 32, off + 4) := by
  have hlen : buff.length - off = 4 + rest.length := by
    have h1 := congrArg List.length h
    simp only [List.length_drop, List.length_append, u32LE_length] at h1
    omega
  have hoff : off ≤ buff.length := by
    by_contra hc
    have hnil : buff.drop off = [] := List.drop_eq_nil_of_le (by omega)
    rw [hnil] at h
    have h2 := congrArg List.length h
    simp only [List.length_nil, List.length_append, u32LE_length] at h2
    omega
  unfold readUint32FromBufferLE
  rw [if_pos (by omega), h]
  rw [show (4 : Nat) = (u32LE v).length from (u32LE_length v).symm, List.take_left,
    leVal_u32LE]

theorem readUint64_of_drop {buff : List Nat} {off v : Nat} {rest : List Nat}
    (h : buff.drop off = u64LE v ++ rest) :
    readUint64FromBufferLE buff off = some (v % 2 ^ 64, off + 8) := by
  have hlen : buff.length - off = 8 + rest.length := by
    have h1 := congrArg List.length h
    simp only [List.length_drop, List.length_append, u64LE_length] at h1
    omega
  have hoff : off ≤ buff.length := by
    by_contra hc
    have hnil : buff.drop off = [] := List.drop_eq_nil_of_le (by omega)
    rw [hnil] at h
    have h2 := congrArg List.length h
    simp only [List.length_nil, List.length_append, u64LE_length] at h2
    omega
  unfold readUint64FromBufferLE
  rw [if_pos (by omega), h]
  rw [show (8 : Nat) = (u64LE v).length from (u64LE_length v).symm, List.take_left,
    leVal_u64LE]

theorem tableData_length (f : Nat) (es : List KV) :
    (tableData f es).length = encodedSize es := by
  have hklemkl : ∀ kv ∈ es, kv.key.length ≤ mklOf es := fun kv h => maxKLfold_key_le h 0
  have hreglen := indexRegion_idxSpec_length (mklOf es) es hklemkl 5
  simp only [tableData, List.length_cons, List.length_append, u32LE_length, hreglen,
    encodedSize, entriesLen]
  omega

theorem serialize_assoc (s : SSTable) :
    serialize s = s.data ++ (u32LE s.maxKeyLength ++ (u32LE s.numEntries ++
      (u32LE s.numDeletes ++ (u32LE s.indexOffset ++ u64LE s.creationTime)))) := by
  simp [serialize, appendUint32ToBufferLE, appendUint64ToBufferLE, List.append_assoc]

theorem serialize_length (s : SSTable) : (serialize s).length = s.data.length + 24 := by
  simp [serialize_assoc, u32LE_length, u64LE_length]

/-- Deserializing at offset 0 the serialization of a successfully built
table restores every field and the exact data buffer, returning the offset
one past the end of the buffer. -/
theorem deserialize_serialize (f now : Nat) (es : List KV)
    (hsize : encodedSize es ≤ 2 ^ 32 - 1) :
    deserialize (serialize (tableSpec f now es)) 0
      = some (tableSpec f now es, encodedSize es + 24) := by
  set t := tableSpec f now es with ht
  have hdatalen : t.data.length = encodedSize es := tableData_length f es
  have hser : serialize t = tableData f es ++ (u32LE (mklOf es) ++ (u32LE es.length ++
      (u32LE (numDelFold 0 es) ++ (u32LE (5 + entriesLen es) ++ u64LE (now % 2 ^ 64))))) := by
    rw [serialize_assoc]
    rfl
  have hget0 : (serialize t).get? 0 = some (f % 256) := by
    rw [hser]
    rfl
  have hdrop1 : (serialize t).drop 1 = u32LE (encodedSize es)
      ++ ((entriesRegion es ++ indexRegion (mklOf es) (idxSpec 5 es))
          ++ (u32LE (mklOf es) ++ (u32LE es.length ++ (u32LE (numDelFold 0 es)
            ++ (u32LE (5 + entriesLen es) ++ u64LE (now % 2 ^ 64)))))) := by
    rw [hser]
    show (tableData f es ++ _).drop 1 = _
    simp [tableData, List.append_assoc]
  have hread1 := readUint32_of_drop hdrop1
  rw [Nat.mod_eq_of_lt (by omega)] at hread1
  have hdropEnc : (serialize t).drop (encodedSize es) = u32LE (mklOf es) ++ (u32LE es.length ++
      (u32LE (numDelFold 0 es) ++ (u32LE (5 + entriesLen es) ++ u64LE (now % 2 ^ 64)))) := by
    rw [hser]
    exact List.drop_left' (tableData_length f es)
  have hreadEnc := readUint32_of_drop hdropEnc
  rw [Nat.mod_eq_of_lt (mklOf_bound hsize)] at hreadEnc
  have hdrop4 : (serialize t).drop (encodedSize es + 4) = u32LE es.length ++
      (u32LE (numDelFold 0 es) ++ (u32LE (5 + entriesLen es) ++ u64LE (now % 2 ^ 64))) := by
    rw [← List.drop_drop, hdropEnc]
    exact List.drop_left' (u32LE_length _)
  have hread4 := readUint32_of_drop hdrop4
  rw [Nat.mod_eq_of_lt (numEntries_bound hsize)] at hread4
  have hdrop8 : (serialize t).drop (encodedSize es + 4 + 4) = u32LE (numDelFold 0 es) ++
      (u32LE (5 + entriesLen es) ++ u64LE (now % 2 ^ 64)) := by
    rw [← List.drop_drop, hdrop4]
    exact List.drop_left' (u32LE_length _)
  have hread8 := readUint32_of_drop hdrop8
  have hnd_lt : numDelFold 0 es < 2 ^ 32 :=
    lt_of_le_of_lt (by simpa using numDelFold_le es 0) (numEntries_bound hsize)
  rw [Nat.mod_eq_of_lt hnd_lt] at hread8
  have hdrop12 : (serialize t).drop (encodedSize es + 4 + 4 + 4) = u32LE (5 + entriesLen es) ++
      u64LE (now % 2 ^ 64) := by
    rw [← List.drop_drop, hdrop8]
    exact List.drop_left' (u32LE_length _)
  have hread12 := readUint32_of_drop hdrop12
  have hio_lt : 5 + entriesLen es < 2 ^ 32 := by
    have := entriesLen_le_encodedSize es
    omega
  rw [Nat.mod_eq_of_lt hio_lt] at hread12
  have hdrop16 : (serialize t).drop (encodedSize es + 4 + 4 + 4 + 4)
      = u64LE (now % 2 ^ 64) ++ [] := by
    rw [← List.drop_drop, hdrop12, List.append_nil]
    exact List.drop_left' (u32LE_length _)
  have hread16 := readUint64_of_drop hdrop16
  rw [Nat.mod_eq_of_lt (Nat.mod_lt _ (by norm_num))] at hread16
  have hlen24 : 24 ≤ (serialize t).length := by
    rw [serialize_length]
    omega
  have htake : (serialize t).take ((serialize t).length - 24) = tableData f es := by
    rw [serialize_length, hdatalen,
      show encodedSize es + 24 - 24 = encodedSize es from by omega, hser]
    exact List.take_left' (tableData_length f es)
  simp only [deserialize, Nat.zero_add, hget0, hread1, hreadEnc, hread4, hread8, hread12,
    hread16, if_pos hlen24, htake]
  rw [ht]
  constructor

/-! ### Truncated deserialization -/
theorem readUint32_dropLast {buff : List Nat} {off v o2 : Nat}
    (h : readUint32FromBufferLE buff off = some (v, o2)) (hb : off + 4 < buff.length) :
    readUint32FromBufferLE buff.dropLast off = some (v, o2) := by
  unfold readUint32FromBufferLE at h ⊢
  rw [if_pos (by omega)] at h
  rw [if_pos (by rw [List.length_dropLast]; omega)]
  have hval : (buff.dropLast.drop off).take 4 = (buff.drop off).take 4 := by
    rw [List.dropLast_eq_take, List.drop_take, List.take_take,
      Nat.min_eq_left (by omega)]
  rw [hval]
  exact h

theorem get?_dropLast {buff : List Nat} {i : Nat} (hb : i + 1 < buff.length) :
    buff.dropLast.get? i = buff.get? i := by
  rw [List.dropLast_eq_take]
  exact List.get?_take (by omega)

/-- Deserializing a serialized built table with its final byte removed hits
an out-of-bounds read (a Go panic, modelled as `none`): no corrupt-table
error is reported and no table is returned. -/
theorem deserialize_truncated (f now : Nat) (es : List KV)
    (hsize : encodedSize es ≤ 2 ^ 32 - 1) :
    deserialize ((serialize (tableSpec f now es)).dropLast) 0 = none := by
  set t := tableSpec f now es with ht
  have hdatalen : t.data.length = encodedSize es := tableData_length f es
  have hencge : 5 ≤ encodedSize es := by
    unfold encodedSize
    omega
  have hserlen : (serialize t).length = encodedSize es + 24 := by
    rw [serialize_length, hdatalen]
  have hser : serialize t = tableData f es ++ (u32LE (mklOf es) ++ (u32LE es.length ++
      (u32LE (numDelFold 0 es) ++ (u32LE (5 + entriesLen es) ++ u64LE (now % 2 ^ 64))))) := by
    rw [serialize_assoc]
    rfl
  have hget0 : (serialize t).get? 0 = some (f % 256) := by
    rw [hser]
    rfl
  have hdrop1 : (serialize t).drop 1 = u32LE (encodedSize es)
      ++ ((entriesRegion es ++ indexRegion (mklOf es) (idxSpec 5 es))
          ++ (u32LE (mklOf es) ++ (u32LE es.length ++ (u32LE (numDelFold 0 es)
            ++ (u32LE (5 + entriesLen es) ++ u64LE (now % 2 ^ 64)))))) := by
    rw [hser]
    show (tableData f es ++ _).drop 1 = _
    simp [tableData, List.append_assoc]
  have hread1 := readUint32_of_drop hdrop1
  rw [Nat.mod_eq_of_lt (by omega)] at hread1
  have hdropEnc : (serialize t).drop (encodedSize es) = u32LE (mklOf es) ++ (u32LE es.length ++
      (u32LE (numDelFold 0 es) ++ (u32LE (5 + entriesLen es) ++ u64LE (now % 2 ^ 64)))) := by
    rw [hser]
    exact List.drop_left' (tableData_length f es)
  have hreadEnc := readUint32_of_drop hdropEnc
  rw [Nat.mod_eq_of_lt (mklOf_bound hsize)] at hreadEnc
  have hdrop4 : (serialize t).drop (encodedSize es + 4) = u32LE es.length ++
      (u32LE (numDelFold 0 es) ++ (u32LE (5 + entriesLen es) ++ u64LE (now % 2 ^ 64))) := by
    rw [← List.drop_drop, hdropEnc]
    exact List.drop_left' (u32LE_length _)
  have hread4 := readUint32_of_drop hdrop4
  rw [Nat.mod_eq_of_lt (numEntries_bound hsize)] at hread4
  have hdrop8 : (serialize t).drop (encodedSize es + 4 + 4) = u32LE (numDelFold 0 es) ++
      (u32LE (5 + entriesLen es) ++ u64LE (now % 2 ^ 64)) := by
    rw [← List.drop_drop, hdrop4]
    exact List.drop_left' (u32LE_length _)
  have hread8 := readUint32_of_drop hdrop8
  have hnd_lt : numDelFold 0 es < 2 ^ 32 :=
    lt_of_le_of_lt (by simpa using numDelFold_le es 0) (numEntries_bound hsize)
  rw [Nat.mod_eq_of_lt hnd_lt] at hread8
  have hdrop12 : (serialize t).drop (encodedSize es + 4 + 4 + 4) = u32LE (5 + entriesLen es) ++
      u64LE (now % 2 ^ 64) := by
    rw [← List.drop_drop, hdrop8]
    exact List.drop_left' (u32LE_length _)
  have hread12 := readUint32_of_drop hdrop12
  have hio_lt : 5 + entriesLen es < 2 ^ 32 := by
    have := entriesLen_le_encodedSize es
    omega
  rw [Nat.mod_eq_of_lt hio_lt] at hread12
  have hget0' : ((serialize t).dropLast).get? 0 = some (f % 256) := by
    rw [get?_dropLast (by omega)]
    exact hget0
  have hread1' := readUint32_dropLast hread1 (by omega)
  have hreadEnc' := readUint32_dropLast hreadEnc (by omega)
  have hread4' := readUint32_dropLast hread4 (by omega)
  have hread8' := readUint32_dropLast hread8 (by omega)
  have hread12' := readUint32_dropLast hread12 (by omega)
  have hread16' : readUint64FromBufferLE ((serialize t).dropLast)
      (encodedSize es + 4 + 4 + 4 + 4) = none := by
    unfold readUint64FromBufferLE
    rw [if_neg (by rw [List.length_dropLast]; omega)]
  simp only [deserialize, Nat.zero_add, hget0', hread1', hreadEnc', hread4', hread8',
    hread12', hread16']

/-- Whenever `deserialize` succeeds, the returned table's data buffer is
the view `buff[:len(buff)-24]` of the whole input buffer, regardless of
`startOffset`. -/
theorem deserialize_data_view {buff : List Nat} {off : Nat} {t : SSTable} {n : Nat}
    (h : deserialize buff off = some (t, n)) :
    t.data = buff.take (buff.length - 24) := by
  unfold deserialize at h
  repeat' split at h
  all_goals
    first
      | exact Option.noConfusion h
      | (simp only [Option.some.injEq, Prod.mk.injEq] at h
         rw [← h.1])

theorem offsetOf_zero (es : List KV) : offsetOf es 0 = 0 := rfl

theorem offsetOf_cons_succ (kv : KV) (es : List KV) (j : Nat) :
    offsetOf (kv :: es) (j + 1) = (entryBytes kv).length + offsetOf es j := by
  simp [offsetOf]

theorem entriesRegion_length_sum (es : List KV) :
    (entriesRegion es).length = (es.map (fun kv => (entryBytes kv).length)).sum := by
  induction es with
  | nil => rfl
  | cons kv rest ih => simp [entriesRegion, ih]

theorem offsetOf_le_entriesLen (es : List KV) (j : Nat) :
    offsetOf es j ≤ entriesLen es := by
  unfold offsetOf entriesLen
  rw [entriesRegion_length_sum]
  calc ((es.take j).map fun kv => (entryBytes kv).length).sum
      ≤ ((es.take j).map fun kv => (entryBytes kv).length).sum
        + ((es.drop j).map fun kv => (entryBytes kv).length).sum := by omega
    _ = (es.map fun kv => (entryBytes kv).length).sum := by
        rw [← List.sum_append, ← List.map_append, List.take_append_drop]

theorem entriesRegion_drop :
    ∀ (es : List KV) (j : Nat) (kv : KV), es.get? j = some kv →
    (entriesRegion es).drop (offsetOf es j)
      = entryBytes kv ++ entriesRegion (es.drop (j + 1)) := by
  intro es
  induction es with
  | nil => intro j kv h; simp at h
  | cons kv0 rest ih =>
    intro j kv h
    cases j with
    | zero =>
      simp only [List.get?_cons_zero, Option.some.injEq] at h
      subst h
      rfl
    | succ j' =>
      simp only [List.get?_cons_succ] at h
      rw [offsetOf_cons_succ]
      show (entryBytes kv0 ++ entriesRegion rest).drop ((entryBytes kv0).length + offsetOf rest j') = _
      rw [← List.drop_drop, List.drop_left]
      exact ih j' kv h

theorem idxSpec_get? :
    ∀ (es : List KV) (base j : Nat) (kv : KV), es.get? j = some kv →
    (idxSpec base es).get? j = some (kv.key, (base + offsetOf es j) % 2 ^ 32) := by
  intro es
  induction es with
  | nil => intro base j kv h; simp at h
  | cons kv0 rest ih =>
    intro base j kv h
    cases j with
    | zero =>
      simp only [List.get?_cons_zero, Option.some.injEq] at h
      subst h
      simp [idxSpec, offsetOf_zero]
    | succ j' =>
      simp only [List.get?_cons_succ] at h
      show (idxSpec (base + (entryBytes kv0).length) rest).get? j' = _
      rw [ih _ j' kv h, offsetOf_cons_succ]
      congr 2
      omega

theorem idxSpec_length : ∀ (es : List KV) (base : Nat), (idxSpec base es).length = es.length := by
  intro es
  induction es with
  | nil => intro base; rfl
  | cons kv rest ih => intro base; simp [idxSpec, ih]

theorem idxSpec_keys_le (es : List KV) :
    ∀ (base : Nat) (x : List Nat × Nat), x ∈ idxSpec base es → x.1.length ≤ mklOf es := by
  have hkeys : ∀ base x, x ∈ idxSpec base es → ∃ kv ∈ es, x.1 = kv.key := by
    induction es with
    | nil => intro base x hx; simp [idxSpec] at hx
    | cons kv rest ih =>
      intro base x hx
      rcases List.mem_cons.mp hx with he | he
      · exact ⟨kv, by simp, by rw [he]⟩
      · obtain ⟨kv', hkv', hx1⟩ := ih _ x he
        exact ⟨kv', by simp [hkv'], hx1⟩
  intro base x hx
  obtain ⟨kv, hkv, hx1⟩ := hkeys base x hx
  rw [hx1]
  exact maxKLfold_key_le hkv 0

theorem indexBlock_length {mkl : Nat} {e : List Nat × Nat} (h : e.1.length ≤ mkl) :
    (indexBlock mkl e).length = mkl + 4 := by
  simp [indexBlock, padKey_length h, u32LE_length]

theorem indexRegion_drop (mkl : Nat) :
    ∀ (idx : List (List Nat × Nat)) (i : Nat) (e : List Nat × Nat),
    idx.get? i = some e → (∀ x ∈ idx, x.1.length ≤ mkl) →
    (indexRegion mkl idx).drop (i * (mkl + 4))
      = indexBlock mkl e ++ indexRegion mkl (idx.drop (i + 1)) := by
  intro idx
  induction idx with
  | nil => intro i e h _; simp at h
  | cons e0 rest ih =>
    intro i e h hk
    cases i with
    | zero =>
      simp only [List.get?_cons_zero, Option.some.injEq] at h
      subst h
      simp [indexRegion]
    | succ i' =>
      simp only [List.get?_cons_succ] at h
      have h0 : e0.1.length ≤ mkl := hk e0 (by simp)
      show (indexBlock mkl e0 ++ indexRegion mkl rest).drop ((i' + 1) * (mkl + 4)) = _
      rw [show (i' + 1) * (mkl + 4) = (mkl + 4) + i' * (mkl + 4) from by ring,
        ← List.drop_drop, List.drop_left' (indexBlock_length h0)]
      exact ih i' e h (fun x hx => hk x (by simp [hx]))

/-! ### Binary search correctness -/
theorem findLoop_stop {data key : List Nat} {stride idxOff mkl low high : Int}
    (h : ¬ low < high) :
    findLoop data key stride idxOff mkl low high = some high := by
  rw [findLoop]
  rw [dif_neg h]

/-- Invariant-based specification of the binary-search loop: starting from
a window `[low, high]` whose left part is all `< key` and whose right
boundary is either the outermost bound or `≥ key`, the loop lands on the
boundary index. -/
theorem findLoop_spec (data key : List Nat) (n : Nat) (g : Nat → List Nat)
    (stride idxOff mkl : Int)
    (hread : ∀ i : Nat, i < n → sstSlice data ((i : Int) * stride + idxOff)
        ((i : Int) * stride + idxOff + mkl) = some (g i))
    (hmono : ∀ i j : Nat, i ≤ j → j < n → bytesCompare (g i) (g j) ≠ .gt) :
    ∀ d : Nat, ∀ low high : Int, (high - low).toNat ≤ d →
    0 ≤ low → low ≤ high → high ≤ (n : Int) - 1 →
    (∀ j : Nat, (j : Int) < low → bytesCompare (g j) key = .lt) →
    (high = (n : Int) - 1 ∨ bytesCompare (g high.toNat) key ≠ .lt) →
    ∃ hf : Nat, findLoop data key stride idxOff mkl low high = some (hf : Int) ∧
      low ≤ (hf : Int) ∧ (hf : Int) ≤ high ∧
      (∀ j : Nat, j < hf → bytesCompare (g j) key = .lt) ∧
      ((hf : Int) = (n : Int) - 1 ∨ bytesCompare (g hf) key ≠ .lt) := by
  intro d
  induction d with
  | zero =>
    intro low high hd h0 hlh hhn hlow hhigh
    have hstop : ¬ low < high := by omega
    refine ⟨high.toNat, ?_, ?_, ?_, ?_, ?_⟩
    · rw [findLoop_stop hstop, Int.toNat_of_nonneg (by omega)]
    · omega
    · omega
    · intro j hj
      exact hlow j (by omega)
    · rcases hhigh with hh | hh
      · left
        rw [Int.toNat_of_nonneg (by omega)]
        exact hh
      · right
        exact hh
  | succ d ih =>
    intro low high hd h0 hlh hhn hlow hhigh
    by_cases hlt : low < high
    · rw [findLoop]
      rw [dif_pos hlt]
      have hdiv0 : 0 ≤ (high - low) / 2 := by omega
      have hdiv1 : (high - low) / 2 < high - low := by omega
      have hmidlo : low ≤ low + (high - low) / 2 := by omega
      have hmidhi : low + (high - low) / 2 < high := by omega
      have hmn : (low + (high - low) / 2).toNat < n := by omega
      have hmid_cast : (((low + (high - low) / 2).toNat : Int)) = low + (high - low) / 2 :=
        Int.toNat_of_nonneg (by omega)
      have hr := hread (low + (high - low) / 2).toNat hmn
      rw [hmid_cast] at hr
      simp only [hr]
      by_cases hcmp : bytesCompare (g (low + (high - low) / 2).toNat) key = .lt
      · rw [if_pos hcmp]
        have hnew : ∀ j : Nat, (j : Int) < low + (high - low) / 2 + 1 →
            bytesCompare (g j) key = .lt := by
          intro j hj
          rcases lt_or_ge (j : Int) low with hc | hc
          · exact hlow j hc
          · have hjm : j ≤ (low + (high - low) / 2).toNat := by omega
            have hle := hmono j (low + (high - low) / 2).toNat hjm hmn
            exact bytesCompare_le_lt_trans hle hcmp
        obtain ⟨hf, heq, hp1, hp2, hp3, hp4⟩ := ih (low + (high - low) / 2 + 1) high
          (by omega) (by omega) (by omega) hhn hnew hhigh
        exact ⟨hf, heq, by omega, hp2, hp3, hp4⟩
      · rw [if_neg hcmp]
        obtain ⟨hf, heq, hp1, hp2, hp3, hp4⟩ := ih low (low + (high - low) / 2)
          (by omega) (by omega) (by omega) (by omega) hlow (Or.inr hcmp)
        exact ⟨hf, heq, hp1, by omega, hp3, hp4⟩
    · have heq : low = high := by omega
      refine ⟨high.toNat, ?_, ?_, ?_, ?_, ?_⟩
      · rw [findLoop_stop hlt, Int.toNat_of_nonneg (by omega)]
      · omega
      · omega
      · intro j hj
        exact hlow j (by omega)
      · rcases hhigh with hh | hh
        · left
          rw [Int.toNat_of_nonneg (by omega)]
          exact hh
        · right
          exact hh

/-! ### Slices of a built table's data buffer -/
theorem tableData_eq_parts (f : Nat) (es : List KV) :
    tableData f es = (f % 256 :: u32LE (encodedSize es))
      ++ (entriesRegion es ++ indexRegion (mklOf es) (idxSpec 5 es)) := by
  simp [tableData]

theorem header5_length (f : Nat) (es : List KV) :
    (f % 256 :: u32LE (encodedSize es)).length = 5 := by
  simp [u32LE]

theorem tableData_drop_io (f : Nat) (es : List KV) :
    (tableData f es).drop (5 + entriesLen es)
      = indexRegion (mklOf es) (idxSpec 5 es) := by
  rw [tableData_eq_parts, ← List.drop_drop, List.drop_left' (header5_length f es),
    List.drop_left' (show (entriesRegion es).length = entriesLen es from rfl)]

theorem built_slice (f : Nat) (es : List KV)
    (i : Nat) (kv : KV) (hi : es.get? i = some kv) :
    sstSlice (tableData f es)
      ((i * (mklOf es + 4) + (5 + entriesLen es) : Nat) : Int)
      (((i * (mklOf es + 4) + (5 + entriesLen es) : Nat) : Int) + ((mklOf es : Nat) : Int))
      = some (padKey (mklOf es) kv.key) := by
  have hin : i < es.length := (List.get?_eq_some.mp hi).1
  have hkle : kv.key.length ≤ mklOf es := maxKLfold_key_le (List.get?_mem hi) 0
  have hlen : (tableData f es).length = encodedSize es := tableData_length f es
  have hbound : i * (mklOf es + 4) + (5 + entriesLen es) + mklOf es ≤ encodedSize es := by
    have h1 : (i + 1) * (mklOf es + 4) ≤ es.length * (mklOf es + 4) :=
      Nat.mul_le_mul_right _ (by omega)
    have h2 : (i + 1) * (mklOf es + 4) = i * (mklOf es + 4) + (mklOf es + 4) := by ring
    unfold encodedSize
    omega
  unfold sstSlice
  rw [if_pos (by
    refine ⟨Int.natCast_nonneg _, by omega, ?_⟩
    rw [hlen]
    exact_mod_cast hbound)]
  congr 1
  rw [show ((i * (mklOf es + 4) + (5 + entriesLen es) : Nat) : Int)
        + ((mklOf es : Nat) : Int) - ((i * (mklOf es + 4) + (5 + entriesLen es) : Nat) : Int)
      = ((mklOf es : Nat) : Int) from by ring,
    Int.toNat_natCast, Int.toNat_natCast]
  rw [show i * (mklOf es + 4) + (5 + entriesLen es)
      = (5 + entriesLen es) + i * (mklOf es + 4) from by ring]
  rw [← List.drop_drop, tableData_drop_io]
  rw [indexRegion_drop (mklOf es) (idxSpec 5 es) i (kv.key, (5 + offsetOf es i) % 2 ^ 32)
    (idxSpec_get? es 5 i kv hi) (idxSpec_keys_le es 5)]
  rw [show indexBlock (mklOf es) (kv.key, (5 + offsetOf es i) % 2 ^ 32)
      = padKey (mklOf es) kv.key ++ u32LE ((5 + offsetOf es i) % 2 ^ 32) from rfl,
    List.append_assoc]
  exact List.take_left' (padKey_length hkle)

theorem built_read_offset (f : Nat) (es : List KV) (hsize : encodedSize es ≤ 2 ^ 32 - 1)
    (i : Nat) (kv : KV) (hi : es.get? i = some kv) :
    readUint32At (tableData f es)
      (((i * (mklOf es + 4) + (5 + entriesLen es) : Nat) : Int) + ((mklOf es : Nat) : Int))
      = some (5 + offsetOf es i) := by
  have hin : i < es.length := (List.get?_eq_some.mp hi).1
  have hkle : kv.key.length ≤ mklOf es := maxKLfold_key_le (List.get?_mem hi) 0
  have hlen : (tableData f es).length = encodedSize es := tableData_length f es
  have hbound : i * (mklOf es + 4) + (5 + entriesLen es) + mklOf es + 4 ≤ encodedSize es := by
    have h1 : (i + 1) * (mklOf es + 4) ≤ es.length * (mklOf es + 4) :=
      Nat.mul_le_mul_right _ (by omega)
    have h2 : (i + 1) * (mklOf es + 4) = i * (mklOf es + 4) + (mklOf es + 4) := by ring
    unfold encodedSize
    omega
  have hoffle : 5 + offsetOf es i ≤ encodedSize es := by
    have h1 := offsetOf_le_entriesLen es i
    have h2 := entriesLen_le_encodedSize es
    omega
  unfold readUint32At
  rw [if_pos (by
    refine ⟨by positivity, ?_⟩
    rw [hlen]
    exact_mod_cast hbound)]
  congr 1
  rw [show ((i * (mklOf es + 4) + (5 + entriesLen es) : Nat) : Int) + ((mklOf es : Nat) : Int)
      = ((i * (mklOf es + 4) + (5 + entriesLen es) + mklOf es : Nat) : Int) from by push_cast; ring,
    Int.toNat_natCast]
  rw [show i * (mklOf es + 4) + (5 + entriesLen es) + mklOf es
      = (5 + entriesLen es) + i * (mklOf es + 4) + mklOf es from by ring]
  rw [← List.drop_drop, ← List.drop_drop, tableData_drop_io]
  rw [indexRegion_drop (mklOf es) (idxSpec 5 es) i (kv.key, (5 + offsetOf es i) % 2 ^ 32)
    (idxSpec_get? es 5 i kv hi) (idxSpec_keys_le es 5)]
  rw [show indexBlock (mklOf es) (kv.key, (5 + offsetOf es i) % 2 ^ 32)
      = padKey (mklOf es) kv.key ++ u32LE ((5 + offsetOf es i) % 2 ^ 32) from rfl,
    List.append_assoc, List.drop_left' (padKey_length hkle),
    show (4 : Nat) = (u32LE ((5 + offsetOf es i) % 2 ^ 32)).length from (u32LE_length _).symm,
    List.take_left, leVal_u32LE]
  rw [Nat.mod_mod_of_dvd _ (dvd_refl _), Nat.mod_eq_of_lt (by omega)]

theorem built_readLengthPrefixed (f : Nat) (es : List KV)
    (hsize : encodedSize es ≤ 2 ^ 32 - 1)
    (i : Nat) (kv : KV) (hi : es.get? i = some kv) :
    readLengthPrefixed (tableData f es) (5 + offsetOf es i) = some kv.key := by
  have hkle : kv.key.length ≤ mklOf es := maxKLfold_key_le (List.get?_mem hi) 0
  have hmkl_lt : mklOf es < 2 ^ 32 := mklOf_bound hsize
  have hoffle : offsetOf es i ≤ entriesLen es := offsetOf_le_entriesLen es i
  have hdropE : (entriesRegion es).drop (offsetOf es i)
      = entryBytes kv ++ entriesRegion (es.drop (i + 1)) := entriesRegion_drop es i kv hi
  have hdrop : (tableData f es).drop (5 + offsetOf es i)
      = u32LE kv.key.length ++ (kv.key ++ (u32LE kv.value.length ++ (kv.value
        ++ (entriesRegion (es.drop (i + 1)) ++ indexRegion (mklOf es) (idxSpec 5 es))))) := by
    rw [tableData_eq_parts, ← List.drop_drop, List.drop_left' (header5_length f es),
      List.drop_append_of_le_length hoffle, hdropE]
    simp [entryBytes, List.append_assoc]
  have hread := readUint32_of_drop hdrop
  rw [Nat.mod_eq_of_lt (by omega)] at hread
  have hdrop2 : (tableData f es).drop (5 + offsetOf es i + 4)
      = kv.key ++ (u32LE kv.value.length ++ (kv.value
        ++ (entriesRegion (es.drop (i + 1)) ++ indexRegion (mklOf es) (idxSpec 5 es)))) := by
    rw [← List.drop_drop, hdrop]
    exact List.drop_left' (u32LE_length _)
  have hlendata : 5 + offsetOf es i + 4 + kv.key.length ≤ (tableData f es).length := by
    have h1 := congrArg List.length hdrop
    simp only [List.length_drop, List.length_append, u32LE_length] at h1
    omega
  simp only [readLengthPrefixed, hread]
  rw [if_pos hlendata, hdrop2,
    List.take_left' (show kv.key.length = kv.key.length from rfl)]

theorem keyAt_eq {es : List KV} {i : Nat} {kv : KV} (h : es.get? i = some kv) :
    keyAt es i = kv.key := by
  unfold keyAt
  rw [h]

theorem paddedOrdered_lt {es : List KV} (hpad : paddedOrdered es) :
    ∀ (j : Nat) (b : KV), es.get? j = some b → ∀ (i : Nat) (a : KV), i < j →
    es.get? i = some a → bytesCompare (padKey (mklOf es) a.key) b.key = .lt := by
  intro j
  induction j with
  | zero => intro b _ i a hij; omega
  | succ k ih =>
    intro b hb i a hij ha
    rcases Nat.lt_or_ge i k with hik | hik
    · have hklen : k < es.length := by
        have := (List.get?_eq_some.mp hb).1
        omega
      obtain ⟨c, hc⟩ : ∃ c, es.get? k = some c := ⟨es.get ⟨k, hklen⟩, List.get?_eq_get hklen⟩
      have h1 := ih c hc i a hik ha
      have h2 : bytesCompare c.key (padKey (mklOf es) c.key) ≠ .gt := by
        unfold padKey
        exact bytesCompare_prefix_le _ _
      have h3 := hpad k c b hc hb
      exact bytesCompare_lt_trans (bytesCompare_lt_le_trans h1 h2) h3
    · have hik' : i = k := by omega
      subst hik'
      exact hpad i a b ha hb

theorem key_le_padKey (mkl : Nat) (k : List Nat) : bytesCompare k (padKey mkl k) ≠ .gt := by
  unfold padKey
  exact bytesCompare_prefix_le _ _

theorem padKey_not_lt_key (mkl : Nat) (k : List Nat) :
    bytesCompare (padKey mkl k) k ≠ .lt := by
  unfold padKey
  exact bytesCompare_append_not_lt _ _

/-- The three lower-bound properties of `findOffset` on a built table, with
padded-key comparisons: an exact stored key is found at its record's data
offset when earlier padded keys stay below it; a key above all padded
stored keys yields the `-1` sentinel; a key below the smallest stored key
yields the first record's offset (5). -/
theorem findOffset_lower_bound (f now : Nat) (es : List KV) (t : SSTable)
    (sk lk : List Nat) (mn mx : Nat)
    (hord : keysOrdered none es) (hlen : ∀ kv ∈ es, 8 ≤ kv.key.length)
    (hsize : encodedSize es ≤ 2 ^ 32 - 1)
    (hb : buildSSTable f now es = .ok (t, sk, lk, mn, mx))
    (hne : es ≠ [])
    (hpad : paddedOrdered es)
    (key : List Nat) :
    (∀ (j : Nat) (kv : KV), es.get? j = some kv → kv.key = key →
      findOffset t key = some ((5 + offsetOf es j : Nat) : Int)
        ∧ readLengthPrefixed t.data (5 + offsetOf es j) = some key)
    ∧ ((∀ kv ∈ es, bytesCompare (padKey (mklOf es) kv.key) key = .lt)
        → findOffset t key = some (-1))
    ∧ (bytesCompare key sk = .lt
        → findOffset t key = some ((5 : Nat) : Int)
          ∧ readLengthPrefixed t.data 5 = some sk) := by
  have hmaster := buildSSTable_ok f now es hord hlen hsize
  rw [hmaster] at hb
  simp only [Except.ok.injEq, Prod.mk.injEq] at hb
  obtain ⟨hbt, hbsk, hblk, hbmn, hbmx⟩ := hb
  subst hbt hbsk hblk hbmn hbmx
  have hn1 : 1 ≤ es.length := by
    cases es with
    | nil => exact absurd rfl hne
    | cons kv rest => simp
  have hread : ∀ i : Nat, i < es.length →
      sstSlice (tableData f es)
        ((i : Int) * (((mklOf es : Nat) : Int) + 4) + ((5 + entriesLen es : Nat) : Int))
        ((i : Int) * (((mklOf es : Nat) : Int) + 4) + ((5 + entriesLen es : Nat) : Int)
          + ((mklOf es : Nat) : Int))
        = some (padKey (mklOf es) (keyAt es i)) := by
    intro i hi
    obtain ⟨kv, hkv⟩ : ∃ kv, es.get? i = some kv := ⟨es.get ⟨i, hi⟩, List.get?_eq_get hi⟩
    have h0 := built_slice f es i kv hkv
    have hk : keyAt es i = kv.key := keyAt_eq hkv
    rw [hk]
    convert h0 using 2
  have hmono : ∀ i j : Nat, i ≤ j → j < es.length →
      bytesCompare (padKey (mklOf es) (keyAt es i)) (padKey (mklOf es) (keyAt es j)) ≠ .gt := by
    intro i j hij hj
    rcases Nat.lt_or_ge i j with hlt | hge
    · obtain ⟨b, hbj⟩ : ∃ b, es.get? j = some b := ⟨es.get ⟨j, hj⟩, List.get?_eq_get hj⟩
      obtain ⟨a, hai⟩ : ∃ a, es.get? i = some a :=
        ⟨es.get ⟨i, by omega⟩, List.get?_eq_get (by omega)⟩
      have h1 := paddedOrdered_lt hpad j b hbj i a hlt hai
      have h2 : bytesCompare (padKey (mklOf es) (keyAt es i)) (padKey (mklOf es) (keyAt es j))
          = .lt := by
        rw [keyAt_eq hai, keyAt_eq hbj]
        exact bytesCompare_lt_le_trans h1 (key_le_padKey _ _)
      rw [h2]
      intro hc
      cases hc
    · have hij' : i = j := by omega
      subst hij'
      rw [bytesCompare_self]
      intro hc
      cases hc
  obtain ⟨hf, heq, hp1, hp2, hp3, hp4⟩ :=
    findLoop_spec (tableData f es) key es.length (fun i => padKey (mklOf es) (keyAt es i))
      (((mklOf es : Nat) : Int) + 4) ((5 + entriesLen es : Nat) : Int) ((mklOf es : Nat) : Int)
      hread hmono es.length 0 ((es.length : Int) - 1) (by omega) (by omega) (by omega)
      (by omega) (by intro j hj; omega) (Or.inl rfl)
  have hfn : hf < es.length := by omega
  obtain ⟨kvf, hkvf⟩ : ∃ kvf, es.get? hf = some kvf :=
    ⟨es.get ⟨hf, hfn⟩, List.get?_eq_get hfn⟩
  refine ⟨?_, ?_, ?_⟩
  · -- exact stored key
    intro j kv hj hkey
    have hjn : j < es.length := (List.get?_eq_some.mp hj).1
    have hfj : hf = j := by
      rcases Nat.lt_trichotomy hf j with hc | hc | hc
      · rcases hp4 with hc4 | hc4
        · omega
        · exfalso
          apply hc4
          have h1 := paddedOrdered_lt hpad j kv hj hf kvf hc hkvf
          rw [keyAt_eq hkvf, ← hkey]
          exact h1
      · exact hc
      · exfalso
        have h3 := hp3 j hc
        rw [keyAt_eq hj, ← hkey] at h3
        exact padKey_not_lt_key (mklOf es) kv.key h3
    subst hfj
    have hnotlt : bytesCompare (padKey (mklOf es) (keyAt es hf)) key ≠ .lt := by
      rw [keyAt_eq hj, ← hkey]
      exact padKey_not_lt_key _ _
    constructor
    · simp only [findOffset, tableSpec, heq]
      have hroff := built_read_offset f es hsize hf kv hj
      by_cases hlast : (hf : Int) = (es.length : Int) - 1
      · rw [if_pos hlast]
        rw [hread hf hfn]
        simp only [decide_eq_false hnotlt]
        rw [show (hf : Int) * (((mklOf es : Nat) : Int) + 4) + ((5 + entriesLen es : Nat) : Int)
            + ((mklOf es : Nat) : Int)
            = ((hf * (mklOf es + 4) + (5 + entriesLen es) : Nat) : Int)
              + ((mklOf es : Nat) : Int) from by push_cast; ring, hroff]
      · rw [if_neg hlast]
        rw [show (hf : Int) * (((mklOf es : Nat) : Int) + 4) + ((5 + entriesLen es : Nat) : Int)
            + ((mklOf es : Nat) : Int)
            = ((hf * (mklOf es + 4) + (5 + entriesLen es) : Nat) : Int)
              + ((mklOf es : Nat) : Int) from by push_cast; ring, hroff]
    · show readLengthPrefixed (tableData f es) (5 + offsetOf es hf) = some key
      rw [← hkey]
      exact built_readLengthPrefixed f es hsize hf kv hj
  · -- above every padded stored key
    intro hall
    have hlast : (hf : Int) = (es.length : Int) - 1 := by
      rcases hp4 with hc4 | hc4
      · exact hc4
      · exfalso
        apply hc4
        rw [keyAt_eq hkvf]
        exact hall kvf (List.get?_mem hkvf)
    simp only [findOffset, tableSpec, heq]
    rw [if_pos hlast]
    rw [hread hf hfn]
    have hlt : bytesCompare (padKey (mklOf es) (keyAt es hf)) key = .lt := by
      rw [keyAt_eq hkvf]
      exact hall kvf (List.get?_mem hkvf)
    simp only [decide_eq_true hlt]
  · -- below the smallest key
    intro hsmall
    obtain ⟨kv0, hkv0⟩ : ∃ kv0, es.get? 0 = some kv0 :=
      ⟨es.get ⟨0, by omega⟩, List.get?_eq_get (by omega)⟩
    have hsk0 : headKeyD [] es = kv0.key := by
      cases es with
      | nil => exact absurd rfl hne
      | cons kv rest =>
        simp only [List.get?_cons_zero, Option.some.injEq] at hkv0
        rw [← hkv0]
        rfl
    have hf0 : hf = 0 := by
      by_contra hc
      have h3 := hp3 0 (by omega)
      have hgt : bytesCompare (padKey (mklOf es) (keyAt es 0)) key = .gt := by
        rw [keyAt_eq hkv0]
        apply bytesCompare_gt_iff.mpr
        rw [hsk0] at hsmall
        exact bytesCompare_lt_le_trans hsmall (key_le_padKey _ _)
      rw [h3] at hgt
      cases hgt
    subst hf0
    have hnotlt : bytesCompare (padKey (mklOf es) (keyAt es 0)) key ≠ .lt := by
      intro hc
      have hgt : bytesCompare (padKey (mklOf es) (keyAt es 0)) key = .gt := by
        rw [keyAt_eq hkv0]
        apply bytesCompare_gt_iff.mpr
        rw [hsk0] at hsmall
        exact bytesCompare_lt_le_trans hsmall (key_le_padKey _ _)
      rw [hc] at hgt
      cases hgt
    have hroff := built_read_offset f es hsize 0 kv0 hkv0
    have hoff0 : (5 : Nat) + offsetOf es 0 = 5 := by rw [offsetOf_zero]
    constructor
    · simp only [findOffset, tableSpec, heq]
      by_cases hlast : ((0 : Nat) : Int) = (es.length : Int) - 1
      · rw [if_pos hlast]
        rw [hread 0 (by omega)]
        simp only [decide_eq_false hnotlt]
        rw [show ((0 : Nat) : Int) * (((mklOf es : Nat) : Int) + 4)
            + ((5 + entriesLen es : Nat) : Int) + ((mklOf es : Nat) : Int)
            = ((0 * (mklOf es + 4) + (5 + entriesLen es) : Nat) : Int)
              + ((mklOf es : Nat) : Int) from by push_cast; ring, hroff, hoff0]
      · rw [if_neg hlast]
        rw [show ((0 : Nat) : Int) * (((mklOf es : Nat) : Int) + 4)
            + ((5 + entriesLen es : Nat) : Int) + ((mklOf es : Nat) : Int)
            = ((0 * (mklOf es + 4) + (5 + entriesLen es) : Nat) : Int)
              + ((mklOf es : Nat) : Int) from by push_cast; ring, hroff, hoff0]
    · show readLengthPrefixed (tableData f es) 5 = some (headKeyD [] es)
      rw [hsk0]
      have := built_readLengthPrefixed f es hsize 0 kv0 hkv0
      rw [hoff0] at this
      exact this

/-! ### Claim theorems -/
/-- C2: deserializing (at start offset 0) the serialization of a built
table yields a table with identical `numEntries`, `numDeletes`,
`maxKeyLength`, `indexOffset` and `creationTime` and a byte-identical data
region — indeed the very same table value — together with the offset one
past the consumed buffer. -/
theorem claim_C2_round_trip (f now : Nat) (es : List KV) (t : SSTable)
    (sk lk : List Nat) (mn mx : Nat)
    (hord : keysOrdered none es) (hlen : ∀ kv ∈ es, 8 ≤ kv.key.length)
    (hsize : encodedSize es ≤ 2 ^ 32 - 1)
    (hb : buildSSTable f now es = .ok (t, sk, lk, mn, mx)) :
    deserialize (serialize t) 0 = some (t, (serialize t).length) := by
  have hmaster := buildSSTable_ok f now es hord hlen hsize
  rw [hmaster] at hb
  simp only [Except.ok.injEq, Prod.mk.injEq] at hb
  obtain ⟨hbt, -, -, -, -⟩ := hb
  subst hbt
  rw [serialize_length,
    show (tableSpec f now es).data.length = encodedSize es from tableData_length f es]
  exact deserialize_serialize f now es hsize

theorem claim_C2_witness :
    keysOrdered none exSmall ∧
    deserialize (serialize (tableSpec 3 42 exSmall)) 0
      = some (tableSpec 3 42 exSmall, (serialize (tableSpec 3 42 exSmall)).length) :=
  ⟨by decide,
   claim_C2_round_trip 3 42 exSmall (tableSpec 3 42 exSmall) (headKeyD [] exSmall)
     (lastKeyOr [] exSmall) (minVFold (2 ^ 64 - 1) exSmall) (maxVFold 0 exSmall)
     (by decide) (by decide) (by decide) (by decide)⟩

/-- C3 (amended): deserializing a serialized built table with its last byte
truncated runs into an out-of-bounds buffer read — a Go runtime panic,
modelled as `none` — instead of reporting a corrupt-table error; no table
(partial or otherwise) is returned. -/
theorem claim_C3_truncation_panics (f now : Nat) (es : List KV)
    (hsize : encodedSize es ≤ 2 ^ 32 - 1) :
    deserialize ((serialize (tableSpec f now es)).dropLast) 0 = none :=
  deserialize_truncated f now es hsize

theorem claim_C3_counterexample :
    deserialize ((serialize (tableSpec 0 0 exSmall)).dropLast) 0 = none := by
  decide

theorem claim_C3_witness :
    encodedSize exSmall ≤ 2 ^ 32 - 1 ∧
    deserialize ((serialize (tableSpec 7 9 exSmall)).dropLast) 0 = none :=
  ⟨by decide, claim_C3_truncation_panics 7 9 exSmall (by decide)⟩

/-- C4 (amended): in a serialized built table, bytes `[1..5)` hold, as a
little-endian `uint32`, the length of the data buffer — the metadata
offset where the index region ends and the 24-byte footer begins — which
exceeds `indexOffset` by the index region's size; the footer occupies the
final 24 bytes, immediately after the index region. -/
theorem claim_C4_pointer_field (f now : Nat) (es : List KV) (t : SSTable)
    (sk lk : List Nat) (mn mx : Nat)
    (hord : keysOrdered none es) (hlen : ∀ kv ∈ es, 8 ≤ kv.key.length)
    (hsize : encodedSize es ≤ 2 ^ 32 - 1)
    (hb : buildSSTable f now es = .ok (t, sk, lk, mn, mx)) :
    leVal (((serialize t).drop 1).take 4) = t.data.length
    ∧ t.data.length = t.indexOffset + t.numEntries * (t.maxKeyLength + 4)
    ∧ (serialize t).length = t.data.length + 24
    ∧ (serialize t).drop t.data.length
      = u32LE t.maxKeyLength ++ (u32LE t.numEntries ++ (u32LE t.numDeletes
        ++ (u32LE t.indexOffset ++ u64LE t.creationTime))) := by
  have hmaster := buildSSTable_ok f now es hord hlen hsize
  rw [hmaster] at hb
  simp only [Except.ok.injEq, Prod.mk.injEq] at hb
  obtain ⟨hbt, -, -, -, -⟩ := hb
  subst hbt
  have hdatalen : (tableSpec f now es).data.length = encodedSize es := tableData_length f es
  have hser : serialize (tableSpec f now es)
      = tableData f es ++ (u32LE (mklOf es) ++ (u32LE es.length ++
        (u32LE (numDelFold 0 es) ++ (u32LE (5 + entriesLen es) ++ u64LE (now % 2 ^ 64))))) := by
    rw [serialize_assoc]
    rfl
  refine ⟨?_, ?_, serialize_length _, ?_⟩
  · have hdrop1 : (serialize (tableSpec f now es)).drop 1 = u32LE (encodedSize es)
        ++ ((entriesRegion es ++ indexRegion (mklOf es) (idxSpec 5 es))
            ++ (u32LE (mklOf es) ++ (u32LE es.length ++ (u32LE (numDelFold 0 es)
              ++ (u32LE (5 + entriesLen es) ++ u64LE (now % 2 ^ 64)))))) := by
      rw [hser]
      show (tableData f es ++ _).drop 1 = _
      simp [tableData, List.append_assoc]
    rw [hdrop1, List.take_left' (u32LE_length _), leVal_u32LE, hdatalen,
      Nat.mod_eq_of_lt (by omega)]
  · rw [hdatalen]
    show encodedSize es = 5 + entriesLen es + es.length * (mklOf es + 4)
    rfl
  · show (serialize (tableSpec f now es)).drop (tableSpec f now es).data.length = _
    rw [serialize_assoc, List.drop_left]

theorem claim_C4_counterexample :
    buildSSTable 0 0 c4ex = .ok (tableSpec 0 0 c4ex, headKeyD [] c4ex, lastKeyOr [] c4ex,
      minVFold (2 ^ 64 - 1) c4ex, maxVFold 0 c4ex)
    ∧ leVal (((serialize (tableSpec 0 0 c4ex)).drop 1).take 4) = 34
    ∧ (tableSpec 0 0 c4ex).indexOffset = 22
    ∧ (34 : Nat) ≠ 22 := by
  decide

theorem claim_C4_witness :
    keysOrdered none exSmall ∧
    (leVal (((serialize (tableSpec 2 5 exSmall)).drop 1).take 4)
        = (tableSpec 2 5 exSmall).data.length
      ∧ (tableSpec 2 5 exSmall).data.length = (tableSpec 2 5 exSmall).indexOffset
          + (tableSpec 2 5 exSmall).numEntries * ((tableSpec 2 5 exSmall).maxKeyLength + 4)
      ∧ (serialize (tableSpec 2 5 exSmall)).length = (tableSpec 2 5 exSmall).data.length + 24
      ∧ (serialize (tableSpec 2 5 exSmall)).drop (tableSpec 2 5 exSmall).data.length
        = u32LE (tableSpec 2 5 exSmall).maxKeyLength
          ++ (u32LE (tableSpec 2 5 exSmall).numEntries
            ++ (u32LE (tableSpec 2 5 exSmall).numDeletes
              ++ (u32LE (tableSpec 2 5 exSmall).indexOffset
                ++ u64LE (tableSpec 2 5 exSmall).creationTime)))) :=
  ⟨by decide,
   claim_C4_pointer_field 2 5 exSmall (tableSpec 2 5 exSmall) (headKeyD [] exSmall)
     (lastKeyOr [] exSmall) (minVFold (2 ^ 64 - 1) exSmall) (maxVFold 0 exSmall)
     (by decide) (by decide) (by decide) (by decide)⟩

/-- C5 (amended): deserialization of a built table serialized at start
offset 0 yields the table with data `bytes[0 : len(bytes)-24]` and returns
the offset one past the consumed region; in general, for ANY successful
deserialization the data view is always `bytes[0 : len(bytes)-24]` of the
whole buffer — the `startOffset` parameter does not shift it, so
back-to-back decoding of concatenated tables is not supported. -/
theorem claim_C5_deserialize_view (f now : Nat) (es : List KV) (t : SSTable)
    (sk lk : List Nat) (mn mx : Nat)
    (hord : keysOrdered none es) (hlen : ∀ kv ∈ es, 8 ≤ kv.key.length)
    (hsize : encodedSize es ≤ 2 ^ 32 - 1)
    (hb : buildSSTable f now es = .ok (t, sk, lk, mn, mx)) :
    deserialize (serialize t) 0 = some (t, (serialize t).length)
    ∧ ∀ (buff : List Nat) (off : Nat) (t2 : SSTable) (n2 : Nat),
        deserialize buff off = some (t2, n2) → t2.data = buff.take (buff.length - 24) := by
  have hmaster := buildSSTable_ok f now es hord hlen hsize
  rw [hmaster] at hb
  simp only [Except.ok.injEq, Prod.mk.injEq] at hb
  obtain ⟨hbt, -, -, -, -⟩ := hb
  subst hbt
  constructor
  · rw [serialize_length,
      show (tableSpec f now es).data.length = encodedSize es from tableData_length f es]
    exact deserialize_serialize f now es hsize
  · intro buff off t2 n2 h
    exact deserialize_data_view h

theorem claim_C5_counterexample :
    (deserialize c5buff 3).map (fun r => r.1.data)
      = some ([9, 9, 9] ++ (tableSpec 3 42 c4ex).data)
    ∧ (deserialize c5buff 3).map (fun r => r.2) = some 58
    ∧ c5buff.length = 61
    ∧ (c5buff.drop 3).take (c5buff.length - 24 - 3) = (tableSpec 3 42 c4ex).data
    ∧ [9, 9, 9] ++ (tableSpec 3 42 c4ex).data ≠ (tableSpec 3 42 c4ex).data
    ∧ (58 : Nat) ≠ 61 := by
  decide

theorem claim_C5_witness :
    keysOrdered none exSmall ∧
    deserialize (serialize (tableSpec 1 2 exSmall)) 0
      = some (tableSpec 1 2 exSmall, (serialize (tableSpec 1 2 exSmall)).length)
    ∧ (tableSpec 1 2 exSmall).data
      = (serialize (tableSpec 1 2 exSmall)).take ((serialize (tableSpec 1 2 exSmall)).length - 24) := by
  have h := claim_C5_deserialize_view 1 2 exSmall (tableSpec 1 2 exSmall) (headKeyD [] exSmall)
    (lastKeyOr [] exSmall) (minVFold (2 ^ 64 - 1) exSmall) (maxVFold 0 exSmall)
    (by decide) (by decide) (by decide) (by decide)
  exact ⟨by decide, h.1, h.2 _ 0 _ _ h.1⟩

/-- C6: presenting two consecutive entries whose keys are not strictly
increasing makes the build fail — never returning a table — and, whenever
every key meets the 8-byte version-suffix precondition, the failure is
precisely the "keys not in order / contains duplicates" panic. -/
theorem claim_C6_ordering_enforcement (f now : Nat) (es : List KV) (i : Nat) (a b : KV)
    (ha : es.get? i = some a) (hb : es.get? (i + 1) = some b)
    (hv : bytesCompare a.key b.key ≠ .lt) :
    (∀ r, buildSSTable f now es ≠ .ok r)
    ∧ ((∀ kv ∈ es, 8 ≤ kv.key.length) → buildSSTable f now es = .error .outOfOrder) := by
  have hno : ¬ keysOrdered none es := not_keysOrdered_of_violation es i a b ha hb hv none
  constructor
  · intro r hok
    rcases hres : buildLoop (initState f) es with e | st
    · rw [buildSSTable_loop_error hres] at hok
      exact Except.noConfusion hok
    · exact buildLoop_not_ok es (initState f) hno st hres
  · intro hlen8
    exact buildSSTable_loop_error (buildLoop_outOfOrder es (initState f) hlen8 hno)

theorem claim_C6_witness :
    bytesCompare (List.replicate 8 98) (List.replicate 8 98) ≠ Ordering.lt
    ∧ buildSSTable 0 0 c6ex = .error .outOfOrder := by
  refine ⟨by decide, ?_⟩
  exact (claim_C6_ordering_enforcement 0 0 c6ex 0 ⟨List.replicate 8 98, [1]⟩
    ⟨List.replicate 8 98, [2]⟩ (by decide) (by decide) (by decide)).2 (by decide)

/-- C7: when the encoded size (entries region plus index region plus the
5-byte header) exceeds the 32-bit offset range, the build reports the
distinct "SSTable too big" failure and no table is produced. -/
theorem claim_C7_table_too_big (f now : Nat) (es : List KV)
    (hord : keysOrdered none es) (hlen : ∀ kv ∈ es, 8 ≤ kv.key.length)
    (hsize : 2 ^ 32 - 1 < encodedSize es) :
    buildSSTable f now es = .error .tableTooBig
    ∧ ∀ r, buildSSTable f now es ≠ .ok r := by
  have h := buildSSTable_tooBig f now es hord hlen hsize
  refine ⟨h, ?_⟩
  intro r hok
  rw [h] at hok
  exact Except.noConfusion hok

theorem claim_C7_witness :
    2 ^ 32 - 1 < encodedSize c7ex
    ∧ buildSSTable 0 0 c7ex = .error .tableTooBig := by
  have h1 : entriesLen c7ex = 16 + 2 ^ 32 := by
    show (entriesRegion c7ex).length = 16 + 2 ^ 32
    rw [show entriesRegion c7ex
        = entryBytes ⟨List.replicate 8 97, List.replicate (2 ^ 32) 0⟩ ++ entriesRegion [] from rfl,
      show entriesRegion ([] : List KV) = [] from rfl, List.append_nil,
      show entryBytes ⟨List.replicate 8 97, List.replicate (2 ^ 32) 0⟩
        = ((u32LE (List.replicate 8 97).length ++ List.replicate 8 97)
            ++ u32LE (List.replicate (2 ^ 32) 0).length) ++ List.replicate (2 ^ 32) 0 from rfl]
    simp only [List.length_append, u32LE_length, List.length_replicate]
  have hsize : 2 ^ 32 - 1 < encodedSize c7ex := by
    have h2 := entriesLen_le_encodedSize c7ex
    rw [h1] at h2
    omega
  have hord : keysOrdered none c7ex := ⟨trivial, trivial⟩
  have hlen : ∀ kv ∈ c7ex, 8 ≤ kv.key.length := by
    intro kv hkv
    simp only [c7ex, List.mem_singleton] at hkv
    subst hkv
    show 8 ≤ (List.replicate 8 97).length
    rw [List.length_replicate]
  exact ⟨hsize, (claim_C7_table_too_big 0 0 c7ex hord hlen hsize).1⟩

theorem numDelFold_eq_countP (es : List KV) : ∀ d,
    numDelFold d es = d + es.countP (fun kv => decide (kv.value.length = 0)) := by
  induction es with
  | nil => intro d; simp [numDelFold]
  | cons kv rest ih =>
    intro d
    have h : numDelFold d (kv :: rest)
        = numDelFold (if kv.value.length = 0 then d + 1 else d) rest := rfl
    rw [h, ih, List.countP_cons]
    by_cases hv : kv.value.length = 0 <;> simp [hv] <;> omega

/-- C8: a built table's `numDeletes` counts exactly the entries with empty
values, `numEntries` counts all entries, and (for a non-empty table) the
delete ratio is their exact quotient. -/
theorem claim_C8_delete_accounting (f now : Nat) (es : List KV) (t : SSTable)
    (sk lk : List Nat) (mn mx : Nat)
    (hord : keysOrdered none es) (hlen : ∀ kv ∈ es, 8 ≤ kv.key.length)
    (hsize : encodedSize es ≤ 2 ^ 32 - 1)
    (hb : buildSSTable f now es = .ok (t, sk, lk, mn, mx)) :
    t.numDeletes = es.countP (fun kv => decide (kv.value.length = 0))
    ∧ t.numEntries = es.length
    ∧ (0 < t.numEntries →
        deleteRatio t
          = ((es.countP (fun kv => decide (kv.value.length = 0)) : ℚ) / (es.length : ℚ))) := by
  have hmaster := buildSSTable_ok f now es hord hlen hsize
  rw [hmaster] at hb
  simp only [Except.ok.injEq, Prod.mk.injEq] at hb
  obtain ⟨hbt, -, -, -, -⟩ := hb
  subst hbt
  have hnd : (tableSpec f now es).numDeletes
      = es.countP (fun kv => decide (kv.value.length = 0)) := by
    show numDelFold 0 es = _
    rw [numDelFold_eq_countP]
    omega
  refine ⟨hnd, rfl, ?_⟩
  intro _
  show ((tableSpec f now es).numDeletes : ℚ) / ((tableSpec f now es).numEntries : ℚ) = _
  rw [hnd]
  rfl

theorem claim_C8_witness :
    keysOrdered none exSmall ∧
    ((tableSpec 0 0 exSmall).numDeletes
        = exSmall.countP (fun kv => decide (kv.value.length = 0))
      ∧ (tableSpec 0 0 exSmall).numEntries = exSmall.length
      ∧ (0 < (tableSpec 0 0 exSmall).numEntries →
          deleteRatio (tableSpec 0 0 exSmall)
            = ((exSmall.countP (fun kv => decide (kv.value.length = 0)) : ℚ)
              / (exSmall.length : ℚ)))) :=
  ⟨by decide,
   claim_C8_delete_accounting 0 0 exSmall (tableSpec 0 0 exSmall) (headKeyD [] exSmall)
     (lastKeyOr [] exSmall) (minVFold (2 ^ 64 - 1) exSmall) (maxVFold 0 exSmall)
     (by decide) (by decide) (by decide) (by decide)⟩

theorem minVFold_le_init (es : List KV) : ∀ m, minVFold m es ≤ m := by
  induction es with
  | nil => intro m; exact le_refl m
  | cons kv rest ih =>
    intro m
    have h : minVFold m (kv :: rest)
        = minVFold (if entryVersion kv.key < m then entryVersion kv.key else m) rest := rfl
    rw [h]
    refine le_trans (ih _) ?_
    split <;> omega

theorem minVFold_le_mem (es : List KV) : ∀ (m : Nat) (kv : KV), kv ∈ es →
    minVFold m es ≤ entryVersion kv.key := by
  induction es with
  | nil => intro m kv h; cases h
  | cons kv0 rest ih =>
    intro m kv h
    have hc : minVFold m (kv0 :: rest)
        = minVFold (if entryVersion kv0.key < m then entryVersion kv0.key else m) rest := rfl
    rcases List.mem_cons.mp h with he | he
    · subst he
      rw [hc]
      refine le_trans (minVFold_le_init rest _) ?_
      split <;> omega
    · rw [hc]
      exact ih _ kv he

theorem minVFold_attained (es : List KV) : ∀ m, minVFold m es = m
    ∨ ∃ kv ∈ es, minVFold m es = entryVersion kv.key := by
  induction es with
  | nil => intro m; exact Or.inl rfl
  | cons kv0 rest ih =>
    intro m
    have hc : minVFold m (kv0 :: rest)
        = minVFold (if entryVersion kv0.key < m then entryVersion kv0.key else m) rest := rfl
    rcases ih (if entryVersion kv0.key < m then entryVersion kv0.key else m) with h | h
    · by_cases hv : entryVersion kv0.key < m
      · right
        refine ⟨kv0, by simp, ?_⟩
        rw [hc, h, if_pos hv]
      · left
        rw [hc, h, if_neg hv]
    · obtain ⟨kv, hkv, he⟩ := h
      right
      exact ⟨kv, by simp [hkv], by rw [hc]; exact he⟩

theorem maxVFold_ge_mem (es : List KV) : ∀ (m : Nat) (kv : KV), kv ∈ es →
    entryVersion kv.key ≤ maxVFold m es := by
  have hinit : ∀ (es' : List KV) (m : Nat), m ≤ maxVFold m es' := by
    intro es'
    induction es' with
    | nil => intro m; exact le_refl m
    | cons kv rest ih =>
      intro m
      have h : maxVFold m (kv :: rest)
          = maxVFold (if entryVersion kv.key > m then entryVersion kv.key else m) rest := rfl
      rw [h]
      refine le_trans ?_ (ih _)
      split <;> omega
  induction es with
  | nil => intro m kv h; cases h
  | cons kv0 rest ih =>
    intro m kv h
    have hc : maxVFold m (kv0 :: rest)
        = maxVFold (if entryVersion kv0.key > m then entryVersion kv0.key else m) rest := rfl
    rcases List.mem_cons.mp h with he | he
    · subst he
      rw [hc]
      refine le_trans ?_ (hinit rest _)
      split <;> omega
    · rw [hc]
      exact ih _ kv he

theorem maxVFold_attained (es : List KV) : ∀ m, maxVFold m es = m
    ∨ ∃ kv ∈ es, maxVFold m es = entryVersion kv.key := by
  induction es with
  | nil => intro m; exact Or.inl rfl
  | cons kv0 rest ih =>
    intro m
    have hc : maxVFold m (kv0 :: rest)
        = maxVFold (if entryVersion kv0.key > m then entryVersion kv0.key else m) rest := rfl
    rcases ih (if entryVersion kv0.key > m then entryVersion kv0.key else m) with h | h
    · by_cases hv : entryVersion kv0.key > m
      · right
        refine ⟨kv0, by simp, ?_⟩
        rw [hc, h, if_pos hv]
      · left
        rw [hc, h, if_neg hv]
    · obtain ⟨kv, hkv, he⟩ := h
      right
      exact ⟨kv, by simp [hkv], by rw [hc]; exact he⟩

theorem entryVersion_le (k : List Nat) : entryVersion k ≤ 2 ^ 64 - 1 :=
  Nat.sub_le _ _

/-- C9: for a non-empty input, every entry's version (`MaxUInt64` minus the
big-endian value of the key's last 8 bytes) lies in the returned
`[minVersion, maxVersion]` interval, and both bounds are attained. -/
theorem claim_C9_version_bounds (f now : Nat) (es : List KV) (t : SSTable)
    (sk lk : List Nat) (mn mx : Nat)
    (hord : keysOrdered none es) (hlen : ∀ kv ∈ es, 8 ≤ kv.key.length)
    (hsize : encodedSize es ≤ 2 ^ 32 - 1)
    (hb : buildSSTable f now es = .ok (t, sk, lk, mn, mx))
    (hne : es ≠ []) :
    (∀ kv ∈ es, mn ≤ entryVersion kv.key ∧ entryVersion kv.key ≤ mx)
    ∧ (∃ kv ∈ es, entryVersion kv.key = mn)
    ∧ (∃ kv ∈ es, entryVersion kv.key = mx) := by
  have hmaster := buildSSTable_ok f now es hord hlen hsize
  rw [hmaster] at hb
  simp only [Except.ok.injEq, Prod.mk.injEq] at hb
  obtain ⟨-, -, -, hbmn, hbmx⟩ := hb
  subst hbmn hbmx
  obtain ⟨kv0, hkv0⟩ : ∃ kv0, kv0 ∈ es := by
    cases es with
    | nil => exact absurd rfl hne
    | cons kv rest => exact ⟨kv, by simp⟩
  refine ⟨?_, ?_, ?_⟩
  · intro kv hkv
    exact ⟨minVFold_le_mem es _ kv hkv, maxVFold_ge_mem es _ kv hkv⟩
  · rcases minVFold_attained es (2 ^ 64 - 1) with h | h
    · refine ⟨kv0, hkv0, ?_⟩
      have h1 := minVFold_le_mem es (2 ^ 64 - 1) kv0 hkv0
      have h2 := entryVersion_le kv0.key
      omega
    · obtain ⟨kv, hkv, he⟩ := h
      exact ⟨kv, hkv, he.symm⟩
  · rcases maxVFold_attained es 0 with h | h
    · refine ⟨kv0, hkv0, ?_⟩
      have h1 := maxVFold_ge_mem es 0 kv0 hkv0
      omega
    · obtain ⟨kv, hkv, he⟩ := h
      exact ⟨kv, hkv, he.symm⟩

theorem claim_C9_witness :
    exSmall ≠ []
    ∧ ((∀ kv ∈ exSmall, minVFold (2 ^ 64 - 1) exSmall ≤ entryVersion kv.key
          ∧ entryVersion kv.key ≤ maxVFold 0 exSmall)
      ∧ (∃ kv ∈ exSmall, entryVersion kv.key = minVFold (2 ^ 64 - 1) exSmall)
      ∧ (∃ kv ∈ exSmall, entryVersion kv.key = maxVFold 0 exSmall)) :=
  ⟨by decide,
   claim_C9_version_bounds 0 0 exSmall (tableSpec 0 0 exSmall) (headKeyD [] exSmall)
     (lastKeyOr [] exSmall) (minVFold (2 ^ 64 - 1) exSmall) (maxVFold 0 exSmall)
     (by decide) (by decide) (by decide) (by decide) (by decide)⟩

/-- C10: building with a key shorter than 8 bytes hits the out-of-bounds
version-suffix slicing (the `keyTooShort` panic), so keys of at least 8
bytes are an unstated precondition; under that precondition the branch is
unreachable. -/
theorem claim_C10_key_length_precondition (f now : Nat) :
    buildSSTable f now [⟨[1], []⟩] = .error .keyTooShort
    ∧ ∀ es : List KV, (∀ kv ∈ es, 8 ≤ kv.key.length) →
        buildSSTable f now es ≠ .error .keyTooShort := by
  constructor
  · have h1 : buildStep (initState f) ⟨[1], []⟩ = .error .keyTooShort := by
      rw [buildStep_none rfl]
      exact buildStepChecked_short (by decide)
    have hstep : buildLoop (initState f) [⟨[1], []⟩] = .error .keyTooShort := by
      simp only [buildLoop, h1]
    exact buildSSTable_loop_error hstep
  · intro es hlen8 h
    rcases hres : buildLoop (initState f) es with e | st
    · rw [buildSSTable_loop_error hres] at h
      have he : e = BuildError.keyTooShort := Except.error.inj h
      subst he
      exact buildLoop_ne_keyTooShort es (initState f) hlen8 hres
    · simp only [buildSSTable, hres] at h
      split at h
      · exact BuildError.noConfusion (Except.error.inj h)
      · exact Except.noConfusion h

theorem claim_C10_witness :
    (∀ kv ∈ exSmall, 8 ≤ kv.key.length)
    ∧ buildSSTable 4 4 [⟨[1], []⟩] = .error .keyTooShort
    ∧ buildSSTable 4 4 exSmall ≠ .error .keyTooShort :=
  ⟨by decide, (claim_C10_key_length_precondition 4 4).1,
   (claim_C10_key_length_precondition 4 4).2 exSmall (by decide)⟩

/-- C1 (amended): lower-bound lookup on a built non-empty table, under the
unambiguous-padding precondition that each entry's key zero-padded to the
table's `maxKeyLength` still compares strictly below the next entry's key:
a stored key is found at an offset holding exactly that length-prefixed
key; a key strictly above every stored key's zero-padded form yields the
not-found sentinel `-1`; a key strictly below the smallest stored key
yields the smallest key's offset (5). -/
theorem claim_C1_lower_bound (f now : Nat) (es : List KV) (t : SSTable)
    (sk lk : List Nat) (mn mx : Nat)
    (hord : keysOrdered none es) (hlen : ∀ kv ∈ es, 8 ≤ kv.key.length)
    (hsize : encodedSize es ≤ 2 ^ 32 - 1)
    (hb : buildSSTable f now es = .ok (t, sk, lk, mn, mx))
    (hne : es ≠ []) (hpad : paddedOrdered es) (key : List Nat) :
    (∀ (j : Nat) (kv : KV), es.get? j = some kv → kv.key = key →
      findOffset t key = some ((5 + offsetOf es j : Nat) : Int)
        ∧ readLengthPrefixed t.data (5 + offsetOf es j) = some key)
    ∧ ((∀ kv ∈ es, bytesCompare (padKey (mklOf es) kv.key) key = .lt)
        → findOffset t key = some (-1))
    ∧ (bytesCompare key sk = .lt
        → findOffset t key = some ((5 : Nat) : Int)
          ∧ readLengthPrefixed t.data 5 = some sk) :=
  findOffset_lower_bound f now es t sk lk mn mx hord hlen hsize hb hne hpad key

/-- Witness for C1 at a concrete two-entry table, looking up the stored
second key. -/
theorem claim_C1_witness :
    keysOrdered none exSmall ∧
    (findOffset (tableSpec 0 0 exSmall) (List.replicate 8 98)
        = some ((5 + offsetOf exSmall 1 : Nat) : Int)
      ∧ readLengthPrefixed (tableSpec 0 0 exSmall).data (5 + offsetOf exSmall 1)
        = some (List.replicate 8 98)) := by
  have hpad : paddedOrdered exSmall := by
    intro i a b ha hb2
    cases i with
    | zero =>
      simp only [exSmall, List.get?_cons_zero, List.get?_cons_succ,
        Option.some.injEq] at ha hb2
      subst ha
      subst hb2
      decide
    | succ n =>
      cases n with
      | zero => simp [exSmall] at hb2
      | succ m => simp [exSmall] at ha
  refine ⟨by decide, ?_⟩
  exact (claim_C1_lower_bound 0 0 exSmall (tableSpec 0 0 exSmall) (headKeyD [] exSmall)
    (lastKeyOr [] exSmall) (minVFold (2 ^ 64 - 1) exSmall) (maxVFold 0 exSmall)
    (by decide) (by decide) (by decide) (by decide) (by decide) hpad
    (List.replicate 8 98)).1 1 ⟨List.replicate 8 98, []⟩ (by decide) rfl

unseal findLoop in
/-- Counterexample to C1 as stated: in `c1bad1` the second stored key
equals the zero-padding of the first, and looking it up returns offset 5,
whose stored key is the FIRST key; in `c1bad2` a lookup key strictly above
both stored keys still does not return the `-1` sentinel. -/
theorem claim_C1_counterexample :
    (buildSSTable 0 0 c1bad1 = .ok (tableSpec 0 0 c1bad1, headKeyD [] c1bad1,
        lastKeyOr [] c1bad1, minVFold (2 ^ 64 - 1) c1bad1, maxVFold 0 c1bad1)
      ∧ c1bad1.get? 1 = some ⟨List.replicate 8 97 ++ [0, 0], [2]⟩
      ∧ findOffset (tableSpec 0 0 c1bad1) (List.replicate 8 97 ++ [0, 0]) = some 5
      ∧ readLengthPrefixed (tableSpec 0 0 c1bad1).data 5 = some (List.replicate 8 97)
      ∧ List.replicate 8 97 ≠ List.replicate 8 97 ++ [0, 0])
    ∧ (buildSSTable 0 0 c1bad2 = .ok (tableSpec 0 0 c1bad2, headKeyD [] c1bad2,
        lastKeyOr [] c1bad2, minVFold (2 ^ 64 - 1) c1bad2, maxVFold 0 c1bad2)
      ∧ bytesCompare (List.replicate 7 97 ++ [96, 0, 0]) (List.replicate 8 97 ++ [0]) = .lt
      ∧ bytesCompare (List.replicate 8 97) (List.replicate 8 97 ++ [0]) = .lt
      ∧ findOffset (tableSpec 0 0 c1bad2) (List.replicate 8 97 ++ [0]) ≠ some (-1)) := by
  constructor
  · decide
  · decide

end SST
